import Mathlib

/-
Verification of the attendance-tracker archive pipeline and the contact-manager
error-handling policy, as a shallow embedding of the Python sources
(attendance_tracker_Assignment_01_python/tracker.py and
Contact_manager/contact_manager.py) over lists of characters.
-/

set_option maxHeartbeats 1000000
set_option maxRecDepth 100000

namespace Tracker

/-- Strings are modelled as lists of characters. -/
abbrev Str := List Char

/-- Coerce a Lean string literal to the character-list model. -/
def chars (s : String) : Str := s.data

/-- Python default whitespace characters (ASCII), as used by str.strip and re \s. -/
def isWs (c : Char) : Bool :=
  c = ' ' || c = '\t' || c = '\n' || c = '\r' || c = '\x0b' || c = '\x0c'

/-- Python str.lstrip with default separator set. -/
def lstrip (s : Str) : Str := s.dropWhile isWs

/-- Python str.rstrip with default separator set. -/
def rstrip (s : Str) : Str := (s.reverse.dropWhile isWs).reverse

/-- Python str.strip with default separator set. -/
def strip (s : Str) : Str := lstrip (rstrip s)

/-- Python str.ljust with space fill. -/
def ljust (w : Nat) (s : Str) : Str := s ++ List.replicate (w - s.length) ' '

/-- Helper for pyTitle: the boolean records whether the previous character was a letter. -/
def pyTitleAux : Bool → Str → Str
  | _, [] => []
  | prev, c :: t =>
    if c.isAlpha then (if prev then c.toLower else c.toUpper) :: pyTitleAux true t
    else c :: pyTitleAux false t

/-- Python str.title for ASCII text: first letter of each run uppercased, rest lowercased. -/
def pyTitle (s : Str) : Str := pyTitleAux false s

/-- Python str.lower for ASCII text. -/
def lowerStr (s : Str) : Str := s.map Char.toLower

/-- Python string comparison: lexicographic on code points. -/
def lexLt : Str → Str → Bool
  | [], [] => false
  | [], _ :: _ => true
  | _ :: _, [] => false
  | a :: x, b :: y => if a = b then lexLt x y else decide (a.toNat < b.toNat)

/-- Comparison key used by tracker.py when listing attendance: lowercased name. -/
def keyLt (a b : Str × Str) : Bool := lexLt (lowerStr a.1) (lowerStr b.1)

/-- Stable insertion for the model of Python sorted (insert before the first
element that is not strictly smaller). -/
def insEntry (x : Str × Str) : List (Str × Str) → List (Str × Str)
  | [] => [x]
  | y :: ys => if keyLt y x then y :: insEntry x ys else x :: y :: ys

/-- Model of sorted(attendance.items(), key=lambda s: s.lower()): a stable sort of the
entry list by lowercased name, as done by write_archive_section and append_csv_rows. -/
def sortedEntries : List (Str × Str) → List (Str × Str)
  | [] => []
  | x :: xs => insEntry x (sortedEntries xs)

/-- Decimal digit character. -/
def digitChar (n : Nat) : Char := Char.ofNat (48 + n)

/-- Accumulator loop for decimal rendering of a natural number; the first
argument is structural fuel, sufficient whenever the value is at most the fuel. -/
def natStrAux (fuel n : Nat) (acc : Str) : Str :=
  if n < 10 then digitChar n :: acc
  else
    match fuel with
    | 0 => acc
    | f + 1 => natStrAux f (n / 10) (digitChar (n % 10) :: acc)

/-- Decimal rendering of a natural number, as Python str(). -/
def natStr (n : Nat) : Str := natStrAux n n []

/-- Decimal rendering of a Python int, with sign. -/
def intStr (i : Int) : Str := if i < 0 then '-' :: natStr i.natAbs else natStr i.toNat

/-- Zero padding on the left as done by format specifiers 04d and 02d. -/
def padZ (w : Nat) (s : Str) : Str := List.replicate (w - s.length) '0' ++ s

/-- A Python datetime.date value. -/
structure PyDate where
  year : Nat
  month : Nat
  day : Nat
deriving DecidableEq

/-- Gregorian leap-year test. -/
def isLeap (y : Nat) : Bool := (y % 4 = 0 && decide (y % 100 ≠ 0)) || y % 400 = 0

/-- Number of days in a month of the proleptic Gregorian calendar. -/
def daysInMonth (y m : Nat) : Nat :=
  if m = 2 then (if isLeap y then 29 else 28)
  else if m = 4 ∨ m = 6 ∨ m = 9 ∨ m = 11 then 30 else 31

/-- Validity of a Python date: the ranges datetime.date accepts. -/
def validDate (d : PyDate) : Bool :=
  decide (1 ≤ d.year) && decide (d.year ≤ 9999) && decide (1 ≤ d.month) &&
  decide (d.month ≤ 12) && decide (1 ≤ d.day) && decide (d.day ≤ daysInMonth d.year d.month)

/-- Python date.isoformat(): zero-padded YYYY-MM-DD. -/
def isoformat (d : PyDate) : Str :=
  padZ 4 (natStr d.year) ++ '-' :: padZ 2 (natStr d.month) ++ '-' :: padZ 2 (natStr d.day)

/-- Join lines with newline, as "\n".join(lines). -/
def joinNL : List Str → Str
  | [] => []
  | [l] => l
  | l :: ls => l ++ '\n' :: joinNL ls

/-- Header line of an archive section, from write_archive_section. -/
def headerLineOf (iso : Str) : Str := chars "=== Attendance for: " ++ iso ++ chars " ==="

/-- Separator line of an archive section: "-" * (colw + 16) with colw = 28. -/
def dashLine : Str := List.replicate 44 '-'

/-- Lines of an archive section between the header line and the trailing blank line,
exactly as built by write_archive_section. -/
def innerLines (stamp : Str) (att : List (Str × Str)) (total absent : Int) : List Str :=
  [chars "Generated at: " ++ stamp, [],
   ljust 28 (chars "Student Name") ++ chars "Check-in Time", dashLine] ++
  (sortedEntries att).map (fun e => ljust 28 e.1 ++ e.2) ++
  [dashLine,
   chars "Total Students Present: " ++ natStr att.length,
   chars "Total Students (Class Strength): " ++ intStr total,
   chars "Total Absent: " ++ intStr absent]

/-- Full line list of an archive section, including header and trailing blank line. -/
def sectionLines (iso stamp : Str) (att : List (Str × Str)) (total absent : Int) : List Str :=
  headerLineOf iso :: innerLines stamp att total absent ++ [[]]

/-- Text appended to the archive per run: "\n".join(lines) + "\n". -/
def sectionText (iso stamp : Str) (att : List (Str × Str)) (total absent : Int) : Str :=
  joinNL (sectionLines iso stamp att total absent) ++ ['\n']

/-- write_archive_section: the archive file is opened in append mode, so the new
section text is appended to the prior archive content. -/
def write_archive_section (archive : Str) (d : PyDate) (stamp : Str)
    (att : List (Str × Str)) (total absent : Int) : Str :=
  archive ++ sectionText (isoformat d) stamp att total absent

/-- One row of the structured CSV log. -/
structure CsvRow where
  gat : Str
  rdate : Str
  sname : Str
  ctime : Str
deriving DecidableEq

/-- append_csv_rows: one row per student, in lowercase-sorted name order. -/
def append_csv_rows (rows : List CsvRow) (d : PyDate) (stamp : Str)
    (att : List (Str × Str)) : List CsvRow :=
  rows ++ (sortedEntries att).map (fun e => ⟨stamp, isoformat d, e.1, e.2⟩)

/-- Literal text "=== Attendance for: " that starts every section header. -/
def afPat : Str := chars "=== Attendance for: "

/-- Full header pattern of find_sections_by_date, including the trailing newline. -/
def hdrPat (iso : Str) : Str := afPat ++ iso ++ ' ' :: '=' :: '=' :: '=' :: ['\n']

/-- Lookahead pattern of find_sections_by_date at which a lazy body stops. -/
def sepPat : Str := '\n' :: afPat

/-- Boolean test that the pattern is an initial segment of the string. -/
def hasPre : Str → Str → Bool
  | [], _ => true
  | _ :: _, [] => false
  | p :: ps, c :: cs => p = c && hasPre ps cs

/-- Length of a lazy regex body: characters up to the first position where
sepPat begins, or the end of the string. -/
def bodyLen : Str → Nat
  | [] => 0
  | c :: t => if hasPre sepPat (c :: t) then 0 else 1 + bodyLen t

/-- Model of re.findall over the find_sections_by_date pattern: scan left-to-right,
and at each header occurrence emit the lazy body and resume at its end. The
first argument is structural fuel, sufficient whenever it is at least the
length of the string. -/
def findallAux (hdr : Str) (fuel : Nat) (s : Str) : List Str :=
  match fuel, s with
  | _, [] => []
  | 0, _ :: _ => []
  | f + 1, c :: t =>
    if hasPre hdr (c :: t) then
      let rest := t.drop (hdr.length - 1)
      rest.take (bodyLen rest) :: findallAux hdr f (rest.drop (bodyLen rest))
    else findallAux hdr f t

/-- The findall scan at adequate fuel. -/
def findall (hdr : Str) (s : Str) : List Str := findallAux hdr s.length s

/-- Assembly of one returned section: header text plus stripped body plus newline. -/
def stripBlock (iso : Str) (m : Str) : Str := hdrPat iso ++ strip m ++ ['\n']

/-- Body of find_sections_by_date once the archive content is in hand. -/
def findSections (content : Str) (iso : Str) : List Str :=
  (findall (hdrPat iso) content).map (stripBlock iso)

/-- find_sections_by_date: returns [] when the archive file does not exist, else
scans the file content. The Option models file existence. -/
def find_sections_by_date (archive : Option Str) (d : PyDate) : List Str :=
  match archive with
  | none => []
  | some content => findSections content (isoformat d)

/-- Shape test for the capture group in read_from_archive: four digits, dash,
two digits, dash, two digits. -/
def isoShape : Str → Bool
  | a :: b :: c :: d :: e :: f :: g :: h :: i :: j :: [] =>
    a.isDigit && b.isDigit && c.isDigit && d.isDigit && e = '-' &&
    f.isDigit && g.isDigit && h = '-' && i.isDigit && j.isDigit
  | _ => false

/-- Match test at one scan position of the re.split pattern of read_from_archive:
literal header text, then a date-shaped capture, then space and three equals signs. -/
def splitMatch (s : Str) : Bool :=
  hasPre afPat s && isoShape ((s.drop 20).take 10) && hasPre (' ' :: '=' :: '=' :: ['=']) (s.drop 30)

/-- Model of re.split with one capture group: returns the text before the first
match and the list of (captured date, following chunk) pairs, scanning
left-to-right with each match consuming 34 characters. The first argument is
structural fuel, sufficient whenever it is at least the length of the string. -/
def reSplitAux (fuel : Nat) (s : Str) : Str × List (Str × Str) :=
  match fuel, s with
  | _, [] => ([], [])
  | 0, l => (l, [])
  | f + 1, c :: t =>
    if splitMatch (c :: t) then
      let r := reSplitAux f (t.drop 33)
      ([], ((t.drop 19).take 10, r.1) :: r.2)
    else
      let r := reSplitAux f t
      (c :: r.1, r.2)

/-- The re.split scan at adequate fuel. -/
def reSplit (s : Str) : Str × List (Str × Str) := reSplitAux s.length s

/-- Python universal line-break characters recognised by str.splitlines. -/
def isLB (c : Char) : Bool :=
  c = '\n' || c = '\r' || c = '\x0b' || c = '\x0c' ||
  c = '\x1c' || c = '\x1d' || c = '\x1e' || c = '\x85' || c = '\u2028' || c = '\u2029'

/-- Accumulator loop of the splitlines model; the accumulator holds the current
line reversed, and a carriage-return newline pair counts as one break. -/
def splitLinesAux (cur : Str) : Str → List Str
  | [] => if cur = [] then [] else [cur.reverse]
  | [c] => if isLB c then [cur.reverse] else [(c :: cur).reverse]
  | c1 :: c2 :: t =>
    if isLB c1 then
      if c1 = '\r' && c2 = '\n' then cur.reverse :: splitLinesAux [] t
      else cur.reverse :: splitLinesAux [] (c2 :: t)
    else splitLinesAux (c1 :: cur) (c2 :: t)

/-- Python str.splitlines. -/
def splitLines (s : Str) : List Str := splitLinesAux [] s

/-- Length of the leading whitespace run. -/
def wsRun : Str → Nat
  | [] => 0
  | c :: t => if isWs c then 1 + wsRun t else 0

/-- Whether the string starts with a whitespace character. -/
def headWs : Str → Bool
  | [] => false
  | c :: _ => isWs c

/-- Accumulator loop of the model of re.split over runs of two or more
whitespace characters; the accumulator holds the current part reversed, and the
first argument is structural fuel, sufficient whenever it is at least the
length of the string. -/
def splitWs2Aux (fuel : Nat) (cur : Str) (s : Str) : List Str :=
  match fuel, s with
  | _, [] => [cur.reverse]
  | 0, l => [cur.reverse ++ l]
  | f + 1, c :: t =>
    if isWs c && headWs t then
      cur.reverse :: splitWs2Aux f [] (t.drop (wsRun t))
    else splitWs2Aux f (c :: cur) t

/-- Model of re.split(r two-or-more-whitespace, line) used on data rows. -/
def splitWs2 (s : Str) : List Str := splitWs2Aux s.length [] s

/-- Search for a digit-digit-colon-digit-digit pattern anywhere in the string. -/
def hasDDcDD : Str → Bool
  | a :: b :: c :: d :: e :: t =>
    (a.isDigit && b.isDigit && c = ':' && d.isDigit && e.isDigit) || hasDDcDD (b :: c :: d :: e :: t)
  | _ => false

/-- Case-insensitive search for AM or PM anywhere in the string. -/
def hasAmPm : Str → Bool
  | a :: b :: t =>
    ((a = 'A' || a = 'a' || a = 'P' || a = 'p') && (b = 'M' || b = 'm')) || hasAmPm (b :: t)
  | _ => false

/-- The time heuristic of read_from_archive: a digit pair, colon, digit pair
somewhere, or an AM or PM marker, or the empty string. -/
def timeOk (t : Str) : Bool := hasDDcDD t || hasAmPm t || t = []

/-- Insertion-ordered dictionary from student name to time, as a Python dict. -/
abbrev Dict := List (Str × Str)

/-- Insertion-ordered dictionary from date string to per-date entries. -/
abbrev PerDate := List (Str × Dict)

/-- Python dict assignment d[k] = v on an insertion-ordered dictionary. -/
def dinsert (d : Dict) (k v : Str) : Dict :=
  match d with
  | [] => [(k, v)]
  | (k0, v0) :: t => if k0 = k then (k0, v) :: t else (k0, v0) :: dinsert t k v

/-- per_date[dt][name] = time on a defaultdict(dict). -/
def pdInsert (m : PerDate) (dt k v : Str) : PerDate :=
  match m with
  | [] => [(dt, [(k, v)])]
  | (d0, e0) :: t => if d0 = dt then (d0, dinsert e0 k v) :: t else (d0, e0) :: pdInsert t dt k v

/-- read_from_csv over the structured rows: strip fields, title-case the name,
skip rows with empty date or name, and store date to name to time. -/
def read_from_csv (rows : List CsvRow) : PerDate :=
  rows.foldl (fun acc r =>
    let dt := strip r.rdate
    let nm := pyTitle (strip r.sname)
    let tm := strip r.ctime
    if dt = [] ∨ nm = [] then acc else pdInsert acc dt nm tm) []

/-- Per-line step of read_from_archive: skip blanks, all-dash lines and metadata
lines, then split the row on wide whitespace runs and apply the time heuristic. -/
def lineStep (dt : Str) (acc : PerDate) (line : Str) : PerDate :=
  let l := strip line
  if l = [] then acc
  else if l.all (fun c => c = '-') then acc
  else if hasPre (chars "Generated at") l || hasPre (chars "Student Name") l ||
          hasPre (chars "Total") l then acc
  else
    match splitWs2 l with
    | p0 :: p1 :: ps =>
      let nm := pyTitle (strip p0)
      let tm := strip ((p1 :: ps).getLast (by simp))
      if timeOk tm then (if nm = [] then acc else pdInsert acc dt nm tm) else acc
    | _ => acc

/-- read_from_archive: split the content on section headers, then parse each
chunk line by line. Returns [] when the archive file does not exist. -/
def read_from_archive (archive : Option Str) : PerDate :=
  match archive with
  | none => []
  | some content =>
    (reSplit content).2.foldl (fun acc pr =>
      (splitLines pr.2).foldl (lineStep (strip pr.1)) acc) []

/-- Decimal value of a digit character. -/
def digitVal (c : Char) : Nat := c.toNat - 48

/-- Alternatives of the strptime directive for a 12-hour hour: two-digit 10 to 12,
zero-padded 01 to 09, or a single digit 1 to 9, in regex alternation order. -/
def matchI (s : Str) : List (Nat × Str) :=
  (match s with
   | a :: b :: t =>
     if a = '1' && (b = '0' || b = '1' || b = '2') then [(10 + digitVal b, t)] else []
   | _ => []) ++
  (match s with
   | a :: b :: t =>
     if a = '0' && b.isDigit && decide (b ≠ '0') then [(digitVal b, t)] else []
   | _ => []) ++
  (match s with
   | a :: t => if a.isDigit && decide (a ≠ '0') then [(digitVal a, t)] else []
   | _ => [])

/-- Alternatives of the strptime directive for a 24-hour hour: 20 to 23, a
zero-or-one-led two-digit value, or a single digit, in regex alternation order. -/
def matchH (s : Str) : List (Nat × Str) :=
  (match s with
   | a :: b :: t =>
     if a = '2' && (b = '0' || b = '1' || b = '2' || b = '3') then [(20 + digitVal b, t)] else []
   | _ => []) ++
  (match s with
   | a :: b :: t =>
     if (a = '0' || a = '1') && b.isDigit then [(10 * digitVal a + digitVal b, t)] else []
   | _ => []) ++
  (match s with
   | a :: t => if a.isDigit then [(digitVal a, t)] else []
   | _ => [])

/-- Alternatives of the strptime directive for minutes: two digits 00 to 59, or a
single digit, in regex alternation order. -/
def matchM (s : Str) : List (Nat × Str) :=
  (match s with
   | a :: b :: t =>
     if a.isDigit && decide (a ≤ '5') && b.isDigit then [(10 * digitVal a + digitVal b, t)] else []
   | _ => []) ++
  (match s with
   | a :: t => if a.isDigit then [(digitVal a, t)] else []
   | _ => [])

/-- Alternatives of the strptime AM or PM directive, case-insensitive; the boolean
is true for PM. -/
def matchP (s : Str) : List (Bool × Str) :=
  match s with
  | a :: b :: t =>
    (if (a = 'A' || a = 'a') && (b = 'M' || b = 'm') then [(false, t)] else []) ++
    (if (a = 'P' || a = 'p') && (b = 'M' || b = 'm') then [(true, t)] else [])
  | _ => []

/-- Backtracking over a list of alternatives, trying each continuation in order. -/
def tryAlts {β γ : Type} : List (β × Str) → (β → Str → Option γ) → Option γ
  | [], _ => none
  | (v, r) :: rest, k =>
    match k v r with
    | some x => some x
    | none => tryAlts rest k

/-- Literal character in a strptime format. -/
def expectChar (c : Char) (s : Str) : Option Str :=
  match s with
  | x :: t => if x = c then some t else none
  | [] => none

/-- Whitespace in a strptime format matches one or more whitespace characters. -/
def wsPlus (s : Str) : Option Str :=
  match s with
  | c :: t => if isWs c then some (t.drop (wsRun t)) else none
  | [] => none

/-- Parse with format "%I:%M %p". -/
def parseFmt1 (s : Str) : Option (Nat × Nat × Bool) :=
  tryAlts (matchI s) fun h r1 =>
    (expectChar ':' r1).bind fun r2 =>
      tryAlts (matchM r2) fun m r3 =>
        (wsPlus r3).bind fun r4 =>
          tryAlts (matchP r4) fun pm r5 =>
            if r5 = [] then some (h, m, pm) else none

/-- Parse with format "%H:%M". -/
def parseFmt2 (s : Str) : Option (Nat × Nat) :=
  tryAlts (matchH s) fun h r1 =>
    (expectChar ':' r1).bind fun m2 =>
      tryAlts (matchM m2) fun m r3 =>
        if r3 = [] then some (h, m) else none

/-- Parse with format "%I:%M%p". -/
def parseFmt3 (s : Str) : Option (Nat × Nat × Bool) :=
  tryAlts (matchI s) fun h r1 =>
    (expectChar ':' r1).bind fun r2 =>
      tryAlts (matchM r2) fun m r3 =>
        tryAlts (matchP r3) fun pm r4 =>
          if r4 = [] then some (h, m, pm) else none

/-- Conversion of a 12-hour value and AM or PM flag to a 24-hour value, as
strptime does it. -/
def to24 (h : Nat) (pm : Bool) : Nat :=
  if pm then (if h = 12 then 12 else h + 12) else (if h = 12 then 0 else h)

/-- strftime("%I:%M %p"): zero-padded 12-hour clock rendering. -/
def fmtTime (h24 mi : Nat) : Str :=
  let h12 := if h24 % 12 = 0 then 12 else h24 % 12
  padZ 2 (natStr h12) ++ ':' :: padZ 2 (natStr mi) ++ ' ' :: (if h24 < 12 then chars "AM" else chars "PM")

/-- parse_time: strip the input, try the three formats in order, and render the
normalized 12-hour form on success; none models the raised ValueError. -/
def parse_time (s0 : Str) : Option Str :=
  let s := strip s0
  match parseFmt1 s with
  | some (h, m, pm) => some (fmtTime (to24 h pm) m)
  | none =>
    match parseFmt2 s with
    | some (h, m) => some (fmtTime h m)
    | none =>
      match parseFmt3 s with
      | some (h, m, pm) => some (fmtTime (to24 h pm) m)
      | none => none

/-- Inner time-entry loop of record_attendance_flow: skip empty inputs, re-prompt
on a parse error, and return the first normalized time. -/
def readTime : List Str → Option Str
  | [] => none
  | s0 :: rest =>
    if strip s0 = [] then readTime rest
    else
      match parse_time s0 with
      | some t => some t
      | none => readTime rest

/-- Class-strength loop of record_attendance_flow: none models a non-integer
input, and any value below the present count is refused and re-prompted. -/
def readStrength (present : Nat) : List (Option Int) → Option Int
  | [] => none
  | none :: rest => readStrength present rest
  | some t :: rest => if t < (present : Int) then readStrength present rest else some t

/-- Outcome of the recording flow once the attendance dictionary is complete:
the archive content afterwards, whether a write error was caught, and the
accepted total and derived absent count. none models running out of inputs. -/
def record_flow (archive : Str) (d : PyDate) (stamp : Str) (att : Dict)
    (strengthInputs : List (Option Int)) (writeFails : Bool) :
    Option (Str × Bool × Int × Int) :=
  match readStrength att.length strengthInputs with
  | none => none
  | some total =>
    let absent := total - (att.length : Int)
    if writeFails then some (archive, true, total, absent)
    else some (write_archive_section archive d stamp att total absent, false, total, absent)

/-- Output of the report renderer that the claims speak about: whether the
no-data notice was emitted, the metadata line, and per-date table contents. -/
structure RenderOut where
  noData : Bool
  meta : Str
  tables : List (Str × List (List Str))
deriving DecidableEq

/-- make_colored_pdf restricted to its data content: emit a single no-data notice
when there are no dates or no roster members, else one table per date with a
header row and one row per roster member. -/
def make_colored_pdf (generatedAt : Str) (ordered_dates : List Str) (roster : List Str)
    (per_date_map : PerDate) : RenderOut :=
  let meta := chars "Generated at: " ++ generatedAt
  if ordered_dates = [] ∨ roster = [] then ⟨true, meta, []⟩
  else
    ⟨false, meta, ordered_dates.map (fun dt =>
      let date_entries := (per_date_map.lookup dt).getD []
      (dt, [chars "Student Name", chars "Status", chars "Check-in Time"] ::
        roster.map (fun name =>
          match date_entries.lookup name with
          | some time => [name, chars "Present", if time = [] then ['-'] else time]
          | none => [name, chars "Absent", ['-']])))⟩

/-- Exceptions that the modelled handlers can see. -/
inductive PyErr where
  | osError
  | valueError
deriving DecidableEq

/-- State of the attendance-tracker files: whether the archive exists, its
content, and whether reading it raises. -/
structure TrackerFS where
  archivePresent : Bool
  archiveText : Str
  archiveReadFails : Bool
deriving DecidableEq

/-- ARCHIVE.read_text(): raises on a read failure. -/
def archiveRead (fs : TrackerFS) : Except PyErr Str :=
  if fs.archiveReadFails then .error .osError else .ok fs.archiveText

/-- find_sections_by_date at the file-system level: missing file gives [], and a
read failure propagates. -/
def find_sections_fs (fs : TrackerFS) (d : PyDate) : Except PyErr (List Str) :=
  if fs.archivePresent = false then .ok []
  else (archiveRead fs).map (fun c => findSections c (isoformat d))

/-- Observable outcome of query_by_date_flow. -/
inductive QueryOut where
  | noRecords
  | printed (secs : List Str) (exportResult : Option Bool)
deriving DecidableEq

/-- query_by_date_flow: the archive read is not wrapped in try, so its failure
propagates; the export write failure is caught and reported in the outcome. -/
def query_by_date_flow (fs : TrackerFS) (d : PyDate) (doExport exportFails : Bool) :
    Except PyErr QueryOut :=
  (find_sections_fs fs d).bind fun secs =>
    if secs = [] then .ok .noRecords
    else .ok (.printed secs (if doExport then some (!exportFails) else none))

/-- A contact record of the contact manager. -/
structure Contact where
  cname : Str
  cphone : Str
  cemail : Str
deriving DecidableEq

/-- State of the contact-manager files. -/
structure ContactFS where
  csvPresent : Bool
  csvRows : List Contact
  readFails : Bool
  writeFails : Bool
deriving DecidableEq

/-- ensure_csv_exists: create the CSV with a header when missing; creation
failure raises. -/
def ensure_csv_exists (fs : ContactFS) : Except PyErr ContactFS :=
  if fs.csvPresent then .ok fs
  else if fs.writeFails then .error .osError
  else .ok { fs with csvPresent := true }

/-- load_contacts_from_csv: ensure the file exists, then read it; a read failure
raises. -/
def load_contacts_from_csv (fs : ContactFS) : Except PyErr (ContactFS × List Contact) :=
  (ensure_csv_exists fs).bind fun fs1 =>
    if fs1.readFails then .error .osError else .ok (fs1, fs1.csvRows)

/-- save_contacts_to_csv: overwrite the CSV; a write failure raises. -/
def save_contacts_to_csv (fs : ContactFS) (rows : List Contact) : Except PyErr ContactFS :=
  if fs.writeFails then .error .osError else .ok { fs with csvRows := rows, csvPresent := true }

/-- Observable outcome of add_contact. -/
inductive AddOut where
  | emptyName
  | duplicate
  | added
  | failedCaught
deriving DecidableEq

/-- add_contact: the whole body sits in one try and every exception is caught,
logged and turned into a printed diagnostic, so the handler always returns. -/
def add_contact (fs : ContactFS) (nm ph em : Str) : ContactFS × AddOut :=
  let name := strip nm
  if name = [] then (fs, .emptyName)
  else
    match load_contacts_from_csv fs with
    | .error _ => (fs, .failedCaught)
    | .ok (fs1, contacts) =>
      if contacts.any (fun c => lowerStr c.cname = lowerStr name) then (fs1, .duplicate)
      else
        match save_contacts_to_csv fs1 (contacts ++ [⟨name, strip ph, strip em⟩]) with
        | .error _ => (fs1, .failedCaught)
        | .ok fs2 => (fs2, .added)

/-- Startup of the contact-manager main: an initialization failure of the
primary data file is the one fatal failure, modelled as none. -/
def contact_main_startup (fs : ContactFS) : Option ContactFS :=
  match ensure_csv_exists fs with
  | .error _ => none
  | .ok fs1 => some fs1

/-- Parameters of one archive section as written by write_archive_section. -/
structure SectionData where
  sdate : PyDate
  sstamp : Str
  satt : Dict
  stotal : Int
  sabsent : Int
deriving DecidableEq

/-- Text of the section that write_archive_section appends for these parameters. -/
def secText (q : SectionData) : Str :=
  sectionText (isoformat q.sdate) q.sstamp q.satt q.stotal q.sabsent

/-- Archive content produced by a sequence of recording runs. -/
def archiveOf : List SectionData → Str
  | [] => []
  | q :: l => secText q ++ archiveOf l

/-- The block that find_sections_by_date returns for a section: the section
text without its trailing blank separator line. -/
def blockOf (q : SectionData) : Str :=
  hdrPat (isoformat q.sdate) ++ joinNL (innerLines q.sstamp q.satt q.stotal q.sabsent) ++ ['\n']

/-- Absence of a given character from a string. -/
def charFree (x : Char) (s : Str) : Prop := ∀ c ∈ s, c ≠ x

/-- Absence of any Python line-break character. -/
def lbFree (s : Str) : Prop := ∀ c ∈ s, isLB c = false

/-- Cleanliness of one attendance entry for the archive scanner: neither name
nor time contains an equals sign or a line break. -/
def entryClean (e : Str × Str) : Prop :=
  charFree '=' e.1 ∧ charFree '=' e.2 ∧ lbFree e.1 ∧ lbFree e.2

/-- Cleanliness of one recorded section for the archive scanner. -/
def secClean (q : SectionData) : Prop :=
  validDate q.sdate = true ∧ charFree '=' q.sstamp ∧ lbFree q.sstamp ∧
  ∀ e ∈ q.satt, entryClean e

/-- No two adjacent whitespace characters. -/
def noWsPair : Str → Bool
  | [] => true
  | [_] => true
  | a :: b :: r => !(isWs a && isWs b) && noWsPair (b :: r)

/-- Cleanliness of one attendance entry for the parser-equivalence claim: the
conditions under which the fixed-width row survives the section-text reader. -/
def rowClean (e : Str × Str) : Prop :=
  strip e.1 = e.1 ∧ e.1 ≠ [] ∧ e.1.length ≤ 26 ∧ noWsPair e.1 = true ∧
  charFree '=' e.1 ∧ lbFree e.1 ∧
  hasPre (chars "Generated at") e.1 = false ∧ hasPre (chars "Student Name") e.1 = false ∧
  hasPre (chars "Total") e.1 = false ∧
  strip e.2 = e.2 ∧ e.2 ≠ [] ∧ noWsPair e.2 = true ∧
  charFree '=' e.2 ∧ lbFree e.2 ∧ timeOk e.2 = true

/-- Cleanliness of one recorded section for the parser-equivalence claim. -/
def runClean (q : SectionData) : Prop :=
  validDate q.sdate = true ∧ strip q.sstamp = q.sstamp ∧ charFree '=' q.sstamp ∧
  lbFree q.sstamp ∧ ∀ e ∈ q.satt, rowClean e

/-- Contiguous-substring test. -/
def hasSub (p : Str) (s : Str) : Bool :=
  match s with
  | [] => decide (p = [])
  | _ :: t => hasPre p s || hasSub p t

/-- Structured CSV rows produced by a sequence of recording runs, each run
appending its rows with append_csv_rows. -/
def csvRowsOf (runs : List SectionData) : List CsvRow :=
  runs.foldl (fun acc q => append_csv_rows acc q.sdate q.sstamp q.satt) []

/-- The chunk of archive text that follows one section's header match in the
re.split scan of read_from_archive: the section text after the " ===" that
closes the header line. -/
def chunkOf (q : SectionData) : Str :=
  '\n' :: (joinNL (innerLines q.sstamp q.satt q.stotal q.sabsent) ++ ['\n', '\n'])

instance (x : Char) (s : Str) : Decidable (charFree x s) := by
  unfold charFree; infer_instance

instance (s : Str) : Decidable (lbFree s) := by
  unfold lbFree; infer_instance

instance (e : Str × Str) : Decidable (entryClean e) := by
  unfold entryClean; infer_instance

instance (q : SectionData) : Decidable (secClean q) := by
  unfold secClean; infer_instance

instance (e : Str × Str) : Decidable (rowClean e) := by
  unfold rowClean; infer_instance

instance (q : SectionData) : Decidable (runClean q) := by
  unfold runClean; infer_instance

/-! Theorems. -/

/-- C6: write_archive_section never overwrites or removes prior archive content:
the archive after the call is exactly the prior text followed by the new section
text, so the prior text is an unchanged prefix of the result. -/
theorem claim_C6 (prior : Str) (d : PyDate) (stamp : Str) (att : List (Str × Str))
    (total absent : Int) :
    write_archive_section prior d stamp att total absent =
      prior ++ sectionText (isoformat d) stamp att total absent ∧
    (write_archive_section prior d stamp att total absent).take prior.length = prior := by
  refine ⟨rfl, ?_⟩
  simp [write_archive_section]

/-- C8: the report renderer is deterministic in its table contents: two calls on
the same dates, roster and per-date mapping produce identical table contents and
the same no-data flag, whatever the generation timestamps are. -/
theorem claim_C8 (t1 t2 : Str) (dates roster : List Str) (pd : PerDate) :
    (make_colored_pdf t1 dates roster pd).tables = (make_colored_pdf t2 dates roster pd).tables ∧
    (make_colored_pdf t1 dates roster pd).noData = (make_colored_pdf t2 dates roster pd).noData := by
  unfold make_colored_pdf
  by_cases h : dates = [] ∨ roster = [] <;> simp [h]

/-- C10: when the archive file does not exist, find_sections_by_date returns the
empty list instead of raising, and the query flow reports no records. -/
theorem claim_C10 (fs : TrackerFS) (d : PyDate) (de ef : Bool)
    (h : fs.archivePresent = false) :
    find_sections_fs fs d = .ok [] ∧
    query_by_date_flow fs d de ef = .ok .noRecords := by
  have h1 : find_sections_fs fs d = .ok [] := by simp [find_sections_fs, h]
  refine ⟨h1, ?_⟩
  simp [query_by_date_flow, h1, Except.bind]

/-- C10 witness: a fresh installation with no archive file. -/
theorem claim_C10_witness :
    find_sections_fs ⟨false, [], false⟩ ⟨2025, 1, 1⟩ = .ok [] ∧
    query_by_date_flow ⟨false, [], false⟩ ⟨2025, 1, 1⟩ false false = .ok .noRecords :=
  claim_C10 ⟨false, [], false⟩ ⟨2025, 1, 1⟩ false false rfl

/-- C9 counterexample: a failure other than startup initialization does escape a
menu handler: when the archive file exists but reading it fails, the query
handler propagates the error instead of catching it, contradicting the claim
that every handler catches failures locally. -/
theorem claim_C9_cex :
    query_by_date_flow ⟨true, [], true⟩ ⟨2025, 11, 20⟩ false false =
      Except.error PyErr.osError := rfl

/-- C9 amended: the contact-manager handlers catch failures locally (add_contact
turns any load or save failure into a caught diagnostic) and only failure to
initialize the primary CSV at startup is fatal there; in the attendance tracker
the recording flow catches archive write failures, but an archive read failure
during a date query propagates out of the handler. -/
theorem claim_C9_amended :
    (∀ fs nm ph em, fs.readFails = true → strip nm ≠ [] →
      (add_contact fs nm ph em).2 = AddOut.failedCaught) ∧
    (∀ archive d stamp att ins t, readStrength (List.length att) ins = some t →
      record_flow archive d stamp att ins true =
        some (archive, true, t, t - (List.length att : Int))) ∧
    (∀ fs : ContactFS, fs.csvPresent = false → fs.writeFails = true →
      contact_main_startup fs = none) ∧
    (∀ fs d de ef, fs.archivePresent = true → fs.archiveReadFails = true →
      query_by_date_flow fs d de ef = Except.error PyErr.osError) := by
  refine ⟨?_, ?_, ?_, ?_⟩
  · intro fs nm ph em hrf hnm
    unfold add_contact load_contacts_from_csv ensure_csv_exists
    by_cases hp : fs.csvPresent
    · simp [hp, hnm, Except.bind, hrf]
    · by_cases hw : fs.writeFails <;> simp [hp, hw, hnm, Except.bind, hrf]
  · intro archive d stamp att ins t ht
    simp [record_flow, ht]
  · intro fs hp hw
    simp [contact_main_startup, ensure_csv_exists, hp, hw]
  · intro fs d de ef hp hrf
    simp [query_by_date_flow, find_sections_fs, archiveRead, hp, hrf, Except.map, Except.bind]

/-- C9 amended witness: concrete failing and succeeding states for each clause. -/
theorem claim_C9_amended_witness :
    (add_contact ⟨true, [], true, false⟩ (chars "Bob") [] []).2 = AddOut.failedCaught ∧
    record_flow [] ⟨2025, 1, 1⟩ [] [] [some 5] true = some ([], true, 5, 5) ∧
    contact_main_startup ⟨false, [], false, true⟩ = none ∧
    query_by_date_flow ⟨true, [], true⟩ ⟨2025, 1, 1⟩ false false =
      Except.error PyErr.osError := by
  refine ⟨claim_C9_amended.1 _ _ _ _ rfl (by decide), ?_, claim_C9_amended.2.2.1 _ rfl rfl,
    claim_C9_amended.2.2.2 _ _ false false rfl rfl⟩
  have := claim_C9_amended.2.1 [] ⟨2025, 1, 1⟩ [] [] [some 5] 5 (by decide)
  simpa using this

/-- C4: the recording flow refuses any class-strength input smaller than the
present count, and every archive section it writes satisfies the DateSection
invariant: present is at most the accepted strength and the recorded absent
count equals strength minus present, with the matching count lines in the
written section. -/
theorem claim_C4 :
    (∀ p ins t, readStrength p ins = some t → (p : Int) ≤ t) ∧
    (∀ (p : Nat) (v : Int) ins, v < (p : Int) → readStrength p (some v :: ins) = readStrength p ins) ∧
    (∀ archive d stamp att ins wf res, record_flow archive d stamp att ins wf = some res →
      (List.length att : Int) ≤ res.2.2.1 ∧
      res.2.2.2 = res.2.2.1 - (List.length att : Int) ∧
      (wf = false →
        res.1 = archive ++ sectionText (isoformat d) stamp att res.2.2.1 res.2.2.2 ∧
        chars "Total Students Present: " ++ natStr (List.length att) ∈
          sectionLines (isoformat d) stamp att res.2.2.1 res.2.2.2 ∧
        chars "Total Absent: " ++ intStr res.2.2.2 ∈
          sectionLines (isoformat d) stamp att res.2.2.1 res.2.2.2)) := by
  have hrs : ∀ p ins t, readStrength p ins = some t → (p : Int) ≤ t := by
    intro p ins
    induction ins with
    | nil => intro t h; simp [readStrength] at h
    | cons x rest ih =>
      intro t h
      match x with
      | none => exact ih t h
      | some v =>
        rw [readStrength] at h
        by_cases hv : v < (p : Int)
        · exact ih t (by simpa [hv] using h)
        · have : v = t := by simpa [hv] using h
          omega
  refine ⟨hrs, ?_, ?_⟩
  · intro p v ins hv
    simp [readStrength, hv]
  · intro archive d stamp att ins wf res hres
    unfold record_flow at hres
    match hr : readStrength (List.length att) ins with
    | none => rw [hr] at hres; simp at hres
    | some total =>
      rw [hr] at hres
      have htot := hrs _ _ _ hr
      match wf with
      | true =>
        simp at hres
        subst hres
        refine ⟨htot, rfl, ?_⟩
        intro h; cases h
      | false =>
        simp [write_archive_section] at hres
        subst hres
        refine ⟨htot, rfl, ?_⟩
        intro _
        refine ⟨rfl, ?_, ?_⟩ <;> simp [sectionLines, innerLines]

/-- C4 witness: a first strength input of 1 is refused with two students
present, the second input 3 is accepted, and the written section reports
Present 2, Absent 1. -/
theorem claim_C4_witness :
    record_flow [] ⟨2025, 11, 20⟩ (chars "s")
        [(chars "Alice", chars "09:15 AM"), (chars "Bob", chars "09:20 AM")] [some 1, some 3] false =
      some (write_archive_section [] ⟨2025, 11, 20⟩ (chars "s")
        [(chars "Alice", chars "09:15 AM"), (chars "Bob", chars "09:20 AM")] 3 1, false, 3, 1) ∧
    ((List.length [(chars "Alice", chars "09:15 AM"), (chars "Bob", chars "09:20 AM")] : Nat) : Int) ≤ 3 ∧
    readStrength 2 [some 1, some 3] = readStrength 2 [some 3] := by
  have hflow : record_flow [] ⟨2025, 11, 20⟩ (chars "s")
      [(chars "Alice", chars "09:15 AM"), (chars "Bob", chars "09:20 AM")] [some 1, some 3] false =
    some (write_archive_section [] ⟨2025, 11, 20⟩ (chars "s")
        [(chars "Alice", chars "09:15 AM"), (chars "Bob", chars "09:20 AM")] 3 1, false, 3, 1) := by
    decide
  have h := claim_C4.2.2 [] ⟨2025, 11, 20⟩ (chars "s")
      [(chars "Alice", chars "09:15 AM"), (chars "Bob", chars "09:20 AM")] [some 1, some 3] false
      _ hflow
  exact ⟨hflow, h.1, claim_C4.2.1 2 1 [some 3] (by decide)⟩

/-- C7 counterexample: the claim says a roster member appearing in the date
mapping gets a row with the recorded check-in time, but when the recorded time
is the empty string the renderer emits the placeholder dash instead. -/
theorem claim_C7_cex :
    (make_colored_pdf [] [chars "2025-11-20"] [chars "A"]
        [(chars "2025-11-20", [(chars "A", [])])]).tables =
      [(chars "2025-11-20",
        [[chars "Student Name", chars "Status", chars "Check-in Time"],
         [chars "A", chars "Present", ['-']]])] ∧
    (['-'] : Str) ≠ [] := by
  refine ⟨?_, by decide⟩
  decide

/-- C7 amended: with a nonempty date list and roster the renderer emits, for
every date, a header row plus exactly one row per roster member, marked Present
with the recorded time (or the dash placeholder when the recorded time is
empty) when the member appears in that date's mapping, else Absent with the
dash; with no dates or an empty roster it emits the single no-data notice and
no table. -/
theorem claim_C7_amended (gat : Str) (dates roster : List Str) (pd : PerDate) :
    ((dates = [] ∨ roster = []) →
      make_colored_pdf gat dates roster pd = ⟨true, chars "Generated at: " ++ gat, []⟩) ∧
    (dates ≠ [] → roster ≠ [] →
      (make_colored_pdf gat dates roster pd).noData = false ∧
      (make_colored_pdf gat dates roster pd).tables =
        dates.map (fun dt =>
          (dt, [chars "Student Name", chars "Status", chars "Check-in Time"] ::
            roster.map (fun name =>
              match ((pd.lookup dt).getD []).lookup name with
              | some time => [name, chars "Present", if time = [] then ['-'] else time]
              | none => [name, chars "Absent", ['-']])))) := by
  constructor
  · intro h
    simp [make_colored_pdf, h]
  · intro h1 h2
    have h : ¬(dates = [] ∨ roster = []) := by tauto
    constructor <;> simp [make_colored_pdf, h]

/-- C7 amended witness: the spec example, where Carol is on the roster but not
in the date mapping and is rendered Absent with the dash placeholder. -/
theorem claim_C7_amended_witness :
    (make_colored_pdf (chars "t") [chars "2025-11-20"]
        [chars "Alice", chars "Bob", chars "Carol"]
        [(chars "2025-11-20", [(chars "Alice", chars "09:15 AM"), (chars "Bob", chars "09:20 AM")])]).tables =
      [(chars "2025-11-20",
        [[chars "Student Name", chars "Status", chars "Check-in Time"],
         [chars "Alice", chars "Present", chars "09:15 AM"],
         [chars "Bob", chars "Present", chars "09:20 AM"],
         [chars "Carol", chars "Absent", ['-']]])] := by
  have h := ((claim_C7_amended (chars "t") [chars "2025-11-20"]
      [chars "Alice", chars "Bob", chars "Carol"]
      [(chars "2025-11-20", [(chars "Alice", chars "09:15 AM"), (chars "Bob", chars "09:20 AM")])]).2
    (by decide) (by decide)).2
  exact h.trans (by decide)

/-- Inversion for the backtracking combinator: a successful parse came from one
of the alternatives. -/
theorem tryAlts_some {β γ : Type} :
    ∀ (alts : List (β × Str)) (k : β → Str → Option γ) (x : γ),
      tryAlts alts k = some x → ∃ p ∈ alts, k p.1 p.2 = some x := by
  intro alts k x
  induction alts with
  | nil => intro h; simp [tryAlts] at h
  | cons a rest ih =>
    obtain ⟨v, r⟩ := a
    intro h
    rw [tryAlts] at h
    cases hk : k v r with
    | some y =>
      simp only [hk] at h
      exact ⟨(v, r), by simp, by rw [hk, h]⟩
    | none =>
      simp only [hk] at h
      obtain ⟨p, hp, hkp⟩ := ih h
      exact ⟨p, by simp [hp], hkp⟩

/-- Numeric bounds carried by a digit character. -/
theorem isDigit_toNat {c : Char} (h : c.isDigit = true) : 48 ≤ c.toNat ∧ c.toNat ≤ 57 := by
  simp [Char.isDigit] at h
  exact ⟨h.1, h.2⟩

/-- Every minute value produced by the strptime minute directive is at most 59. -/
theorem matchM_le (s : Str) (m : Nat) (r : Str) (h : (m, r) ∈ matchM s) : m ≤ 59 := by
  rcases s with _ | ⟨a, _ | ⟨b, t⟩⟩ <;> simp [matchM] at h
  · obtain ⟨h1, hm, -⟩ := h
    have h2 := (isDigit_toNat h1).2
    subst hm
    simp only [digitVal]
    omega
  · rcases h with ⟨⟨⟨ha, ha5⟩, hb⟩, hm, -⟩ | ⟨ha, hm, -⟩
    · have h1 := (isDigit_toNat ha).2
      have h2 := (isDigit_toNat hb).2
      have h3 : a.toNat ≤ 53 := ha5
      subst hm
      simp only [digitVal]
      omega
    · have h1 := (isDigit_toNat ha).2
      subst hm
      simp only [digitVal]
      omega

/-- Minute bound for the first format. -/
theorem parseFmt1_minute (s : Str) (hh m : Nat) (pm : Bool)
    (h : parseFmt1 s = some (hh, m, pm)) : m ≤ 59 := by
  obtain ⟨p1, hp1, hk1⟩ := tryAlts_some _ _ _ h
  rw [Option.bind_eq_some] at hk1
  obtain ⟨r2, -, hk2⟩ := hk1
  obtain ⟨p2, hp2, hk3⟩ := tryAlts_some _ _ _ hk2
  rw [Option.bind_eq_some] at hk3
  obtain ⟨r4, -, hk4⟩ := hk3
  obtain ⟨p3, -, hk5⟩ := tryAlts_some _ _ _ hk4
  split_ifs at hk5
  simp at hk5
  obtain ⟨-, hm, -⟩ := hk5
  exact hm ▸ matchM_le _ _ _ (by simpa using hp2)

/-- Minute bound for the second format. -/
theorem parseFmt2_minute (s : Str) (hh m : Nat)
    (h : parseFmt2 s = some (hh, m)) : m ≤ 59 := by
  obtain ⟨p1, hp1, hk1⟩ := tryAlts_some _ _ _ h
  rw [Option.bind_eq_some] at hk1
  obtain ⟨r2, -, hk2⟩ := hk1
  obtain ⟨p2, hp2, hk3⟩ := tryAlts_some _ _ _ hk2
  split_ifs at hk3
  simp at hk3
  obtain ⟨-, hm⟩ := hk3
  exact hm ▸ matchM_le _ _ _ (by simpa using hp2)

/-- Minute bound for the third format. -/
theorem parseFmt3_minute (s : Str) (hh m : Nat) (pm : Bool)
    (h : parseFmt3 s = some (hh, m, pm)) : m ≤ 59 := by
  obtain ⟨p1, hp1, hk1⟩ := tryAlts_some _ _ _ h
  rw [Option.bind_eq_some] at hk1
  obtain ⟨r2, -, hk2⟩ := hk1
  obtain ⟨p2, hp2, hk3⟩ := tryAlts_some _ _ _ hk2
  obtain ⟨p3, -, hk4⟩ := tryAlts_some _ _ _ hk3
  split_ifs at hk4
  simp at hk4
  obtain ⟨-, hm, -⟩ := hk4
  exact hm ▸ matchM_le _ _ _ (by simpa using hp2)

/-- strftime("%I:%M %p") always renders a 12-hour clock value between 1 and 12
followed by the minutes and an AM or PM marker. -/
theorem fmtTime_shape (h24 mi : Nat) :
    ∃ h, 1 ≤ h ∧ h ≤ 12 ∧
      fmtTime h24 mi = padZ 2 (natStr h) ++ ':' :: padZ 2 (natStr mi) ++ ' ' ::
        (if h24 < 12 then chars "AM" else chars "PM") := by
  refine ⟨if h24 % 12 = 0 then 12 else h24 % 12, ?_, ?_, rfl⟩
  · split <;> omega
  · split <;> omega

/-- C5: parse_time either returns a time canonicalized to the 12-hour
"HH:MM AM/PM" shape or fails; the invalid time "25:99" is rejected; and the
recording flow only ever stores a value that parse_time returned for one of the
entered strings, so a rejected time never reaches the stored entry. -/
theorem claim_C5 :
    (∀ s t, parse_time s = some t →
      ∃ h m ap, 1 ≤ h ∧ h ≤ 12 ∧ m ≤ 59 ∧ (ap = chars "AM" ∨ ap = chars "PM") ∧
        t = padZ 2 (natStr h) ++ ':' :: padZ 2 (natStr m) ++ ' ' :: ap) ∧
    parse_time (chars "25:99") = none ∧
    (∀ ins t, readTime ins = some t → ∃ s ∈ ins, parse_time s = some t) := by
  refine ⟨?_, by decide, ?_⟩
  · intro s t h
    simp only [parse_time] at h
    cases hf1 : parseFmt1 (strip s) with
    | some v =>
      obtain ⟨h1, m1, pm1⟩ := v
      rw [hf1] at h
      simp at h
      obtain ⟨hh, hge, hle, heq⟩ := fmtTime_shape (to24 h1 pm1) m1
      refine ⟨hh, m1, _, hge, hle, parseFmt1_minute _ _ _ _ hf1, ?_, by rw [← h, heq]⟩
      split <;> simp
    | none =>
      rw [hf1] at h
      cases hf2 : parseFmt2 (strip s) with
      | some v =>
        obtain ⟨h1, m1⟩ := v
        rw [hf2] at h
        simp at h
        obtain ⟨hh, hge, hle, heq⟩ := fmtTime_shape h1 m1
        refine ⟨hh, m1, _, hge, hle, parseFmt2_minute _ _ _ hf2, ?_, by rw [← h, heq]⟩
        split <;> simp
      | none =>
        rw [hf2] at h
        cases hf3 : parseFmt3 (strip s) with
        | some v =>
          obtain ⟨h1, m1, pm1⟩ := v
          rw [hf3] at h
          simp at h
          obtain ⟨hh, hge, hle, heq⟩ := fmtTime_shape (to24 h1 pm1) m1
          refine ⟨hh, m1, _, hge, hle, parseFmt3_minute _ _ _ _ hf3, ?_, by rw [← h, heq]⟩
          split <;> simp
        | none => rw [hf3] at h; simp at h
  · intro ins
    induction ins with
    | nil => intro t h; simp [readTime] at h
    | cons s0 rest ih =>
      intro t h
      rw [readTime] at h
      by_cases he : strip s0 = []
      · rw [if_pos he] at h
        obtain ⟨s, hs, hp⟩ := ih t h
        exact ⟨s, by simp [hs], hp⟩
      · rw [if_neg he] at h
        cases hp : parse_time s0 with
        | some t0 =>
          rw [hp] at h
          simp at h
          exact ⟨s0, by simp, by rw [hp, h]⟩
        | none =>
          rw [hp] at h
          obtain ⟨s, hs, hps⟩ := ih t h
          exact ⟨s, by simp [hs], hps⟩

/-- C5 witness: the 24-hour input "14:30" parses to the canonical "02:30 PM",
and a prompting sequence that first sees "25:99" stores only the parsed value
of the later valid input. -/
theorem claim_C5_witness :
    (∃ h m ap, 1 ≤ h ∧ h ≤ 12 ∧ m ≤ 59 ∧ (ap = chars "AM" ∨ ap = chars "PM") ∧
      chars "02:30 PM" = padZ 2 (natStr h) ++ ':' :: padZ 2 (natStr m) ++ ' ' :: ap) ∧
    (∃ s ∈ [chars "25:99", chars "14:30"], parse_time s = some (chars "02:30 PM")) := by
  constructor
  · exact claim_C5.1 (chars "14:30") (chars "02:30 PM") (by decide)
  · exact claim_C5.2.2 [chars "25:99", chars "14:30"] (chars "02:30 PM") (by decide)

/-- Characters with code points between 45 and 57 (digits, dash, and some
punctuation) are not whitespace, not line breaks, and not the equals sign. -/
theorem char_window {c : Char} (h1 : 45 ≤ c.toNat) (h2 : c.toNat ≤ 57) :
    isWs c = false ∧ isLB c = false ∧ c ≠ '=' := by
  refine ⟨?_, ?_, ?_⟩
  · simp only [isWs, Bool.or_eq_false_iff, decide_eq_false_iff_not]
    repeat' apply And.intro
    all_goals (intro h; subst h; revert h1 h2; decide)
  · simp only [isLB, Bool.or_eq_false_iff, decide_eq_false_iff_not]
    repeat' apply And.intro
    all_goals (intro h; subst h; revert h1 h2; decide)
  · intro h; subst h; revert h1 h2; decide

/-- A digit character index below ten yields a digit. -/
theorem digitChar_isDigit {k : Nat} (h : k < 10) : (digitChar k).isDigit = true := by
  interval_cases k <;> decide

/-- All characters produced by the decimal rendering loop are digits, provided
the accumulator holds digits. -/
theorem natStrAux_digits : ∀ fuel n acc, (∀ c ∈ acc, c.isDigit = true) →
    ∀ c ∈ natStrAux fuel n acc, c.isDigit = true := by
  intro fuel
  induction fuel with
  | zero =>
    intro n acc hacc c hc
    rw [natStrAux] at hc
    by_cases h : n < 10
    · rw [if_pos h] at hc
      rcases List.mem_cons.mp hc with hc | hc
      · exact hc ▸ digitChar_isDigit h
      · exact hacc c hc
    · rw [if_neg h] at hc
      exact hacc c hc
  | succ f ih =>
    intro n acc hacc c hc
    rw [natStrAux] at hc
    by_cases h : n < 10
    · rw [if_pos h] at hc
      rcases List.mem_cons.mp hc with hc | hc
      · exact hc ▸ digitChar_isDigit h
      · exact hacc c hc
    · rw [if_neg h] at hc
      refine ih (n / 10) (digitChar (n % 10) :: acc) ?_ c hc
      intro d hd
      rcases List.mem_cons.mp hd with hd | hd
      · exact hd ▸ digitChar_isDigit (Nat.mod_lt _ (by omega))
      · exact hacc d hd

/-- Python str() of a natural number consists of digits. -/
theorem natStr_digits (n : Nat) : ∀ c ∈ natStr n, c.isDigit = true :=
  natStrAux_digits n n [] (by simp)

/-- The decimal rendering loop never returns the empty string at adequate fuel. -/
theorem natStrAux_ne_nil : ∀ fuel n acc, n ≤ fuel → natStrAux fuel n acc ≠ [] := by
  intro fuel
  induction fuel with
  | zero =>
    intro n acc hn
    rw [natStrAux, if_pos (by omega)]
    simp
  | succ f ih =>
    intro n acc hn
    rw [natStrAux]
    by_cases h : n < 10
    · rw [if_pos h]; simp
    · rw [if_neg h]
      have hlt : n / 10 < n := Nat.div_lt_self (by omega) (by omega)
      exact ih (n / 10) _ (by omega)

/-- Python str() of a natural number is nonempty. -/
theorem natStr_ne_nil (n : Nat) : natStr n ≠ [] := natStrAux_ne_nil n n [] le_rfl

/-- Length bound for the decimal rendering loop. -/
theorem natStrAux_len : ∀ fuel k n acc, n ≤ fuel → n < 10 ^ k → 1 ≤ k →
    (natStrAux fuel n acc).length ≤ k + acc.length := by
  intro fuel
  induction fuel with
  | zero =>
    intro k n acc hn hk h1
    rw [natStrAux, if_pos (by omega)]
    simp
    omega
  | succ f ih =>
    intro k n acc hn hk h1
    rw [natStrAux]
    by_cases h : n < 10
    · rw [if_pos h]; simp; omega
    · rw [if_neg h]
      have hk2 : 2 ≤ k := by
        by_contra hlt
        have : k = 1 := by omega
        subst this
        simp at hk
        omega
      have hdiv : n / 10 < 10 ^ (k - 1) := by
        rw [Nat.div_lt_iff_lt_mul (by omega)]
        have : 10 ^ (k - 1) * 10 = 10 ^ k := by
          rw [← pow_succ]
          congr 1
          omega
        omega
      have := ih (k - 1) (n / 10) (digitChar (n % 10) :: acc)
        (by have := Nat.div_lt_self (show 0 < n by omega) (show 1 < 10 by omega); omega)
        hdiv (by omega)
      simp at this
      omega

/-- Length bound for Python str() of a natural number. -/
theorem natStr_len_le {n k : Nat} (h : n < 10 ^ k) (h1 : 1 ≤ k) : (natStr n).length ≤ k := by
  have := natStrAux_len n k n [] le_rfl h h1
  simpa using this

/-- Python str() of an int consists of digits and possibly a leading dash. -/
theorem intStr_chars (i : Int) : ∀ c ∈ intStr i, c.isDigit = true ∨ c = '-' := by
  intro c hc
  unfold intStr at hc
  split at hc
  · rcases List.mem_cons.mp hc with hc | hc
    · right; exact hc
    · left; exact natStr_digits _ c hc
  · left; exact natStr_digits _ c hc

/-- Digits have code points between 48 and 57. -/
theorem isDigit_window {c : Char} (h : c.isDigit = true) : 48 ≤ c.toNat ∧ c.toNat ≤ 57 := by
  simp [Char.isDigit] at h
  exact ⟨h.1, h.2⟩

/-- Characters of intStr are in the benign window. -/
theorem intStr_window (i : Int) : ∀ c ∈ intStr i, 45 ≤ c.toNat ∧ c.toNat ≤ 57 := by
  intro c hc
  rcases intStr_chars i c hc with h | h
  · have := isDigit_window h
    omega
  · subst h; decide

/-- intStr is nonempty. -/
theorem intStr_ne_nil (i : Int) : intStr i ≠ [] := by
  unfold intStr
  split
  · simp
  · exact natStr_ne_nil _

/-- Characters of padZ applied to a digit string are digits. -/
theorem padZ_digits (w : Nat) (s : Str) (hs : ∀ c ∈ s, c.isDigit = true) :
    ∀ c ∈ padZ w s, c.isDigit = true := by
  intro c hc
  unfold padZ at hc
  rcases List.mem_append.mp hc with hc | hc
  · have := List.eq_of_mem_replicate hc
    subst this; decide
  · exact hs c hc

/-- Length of padZ when the input is short enough. -/
theorem padZ_len {w : Nat} {s : Str} (h : s.length ≤ w) : (padZ w s).length = w := by
  unfold padZ
  simp
  omega

/-- Every character of an isoformat date is a digit or a dash. -/
theorem isoformat_chars (d : PyDate) : ∀ c ∈ isoformat d, c.isDigit = true ∨ c = '-' := by
  intro c hc
  unfold isoformat at hc
  rcases List.mem_append.mp hc with h | h
  · rcases List.mem_append.mp h with h | h
    · exact Or.inl (padZ_digits _ _ (natStr_digits _) c h)
    · rcases List.mem_cons.mp h with h | h
      · exact Or.inr h
      · exact Or.inl (padZ_digits _ _ (natStr_digits _) c h)
  · rcases List.mem_cons.mp h with h | h
    · exact Or.inr h
    · exact Or.inl (padZ_digits _ _ (natStr_digits _) c h)

/-- Characters of an isoformat date are in the benign window. -/
theorem isoformat_window (d : PyDate) : ∀ c ∈ isoformat d, 45 ≤ c.toNat ∧ c.toNat ≤ 57 := by
  intro c hc
  rcases isoformat_chars d c hc with h | h
  · have := isDigit_window h
    omega
  · subst h; decide

/-- The isoformat of a valid date has exactly ten characters. -/
theorem isoformat_len {d : PyDate} (h : validDate d = true) : (isoformat d).length = 10 := by
  simp only [validDate, Bool.and_eq_true, decide_eq_true_eq] at h
  obtain ⟨⟨⟨⟨⟨h1, h2⟩, h3⟩, h4⟩, h5⟩, h6⟩ := h
  have hd31 : daysInMonth d.year d.month ≤ 31 := by
    unfold daysInMonth
    split
    · split <;> omega
    · split <;> omega
  unfold isoformat
  have l1 : (padZ 4 (natStr d.year)).length = 4 :=
    padZ_len (natStr_len_le (show d.year < 10 ^ 4 by norm_num; omega) (by omega))
  have l2 : (padZ 2 (natStr d.month)).length = 2 :=
    padZ_len (natStr_len_le (show d.month < 10 ^ 2 by norm_num; omega) (by omega))
  have l3 : (padZ 2 (natStr d.day)).length = 2 :=
    padZ_len (natStr_len_le (show d.day < 10 ^ 2 by norm_num; omega) (by omega))
  simp [l1, l2, l3]

/-- Explicit character form of the header-literal pattern. -/
theorem afPat_eq : afPat = '=' :: '=' :: '=' :: ' ' :: chars "Attendance for: " := rfl

/-- Explicit character form of the body-stop pattern. -/
theorem sepPat_eq : sepPat = '\n' :: afPat := rfl

/-- hasPre cancels a shared leading segment. -/
theorem hasPre_append_same : ∀ (a p s : Str), hasPre (a ++ p) (a ++ s) = hasPre p s := by
  intro a
  induction a with
  | nil => simp
  | cons c t ih => intro p s; simp [hasPre, ih]

/-- Every pattern is a prefix of itself followed by anything. -/
theorem hasPre_self (p x : Str) : hasPre p (p ++ x) = true := by
  have h := hasPre_append_same p [] x
  simpa using h

/-- hasPre across equal-length leading segments. -/
theorem hasPre_eq_len : ∀ (p1 s1 p2 s2 : Str), p1.length = s1.length →
    (hasPre (p1 ++ p2) (s1 ++ s2) = true ↔ p1 = s1 ∧ hasPre p2 s2 = true) := by
  intro p1
  induction p1 with
  | nil =>
    intro s1 p2 s2 hl
    have : s1 = [] := List.eq_nil_of_length_eq_zero hl.symm
    subst this
    simp
  | cons c t ih =>
    intro s1 p2 s2 hl
    cases s1 with
    | nil => simp at hl
    | cons d t1 =>
      have h2 := ih t1 p2 s2 (by simpa using hl)
      constructor
      · intro h
        simp only [List.cons_append, hasPre, Bool.and_eq_true, decide_eq_true_eq] at h
        obtain ⟨hcd, hrest⟩ := h
        obtain ⟨hte, hp⟩ := h2.mp hrest
        exact ⟨by rw [hcd, hte], hp⟩
      · rintro ⟨hcons, hp⟩
        obtain ⟨hcd, hte⟩ := List.cons_eq_cons.mp hcons
        simp only [List.cons_append, hasPre, Bool.and_eq_true, decide_eq_true_eq]
        exact ⟨hcd, h2.mpr ⟨hte, hp⟩⟩

/-- A pattern whose head differs from the string head is not a prefix. -/
theorem hasPre_cons_ne {p0 : Char} {ps : Str} {c : Char} (s : Str) (h : c ≠ p0) :
    hasPre (p0 :: ps) (c :: s) = false := by
  simp [hasPre]
  intro he
  exact absurd he.symm h

/-- The findall loop on the empty string. -/
theorem findallAux_nil (hdr : Str) (f : Nat) : findallAux hdr f [] = [] := by
  cases f <;> rfl

/-- Fuel irrelevance of the findall loop at adequate fuel. -/
theorem findallAux_irrel (hdr : Str) : ∀ f1 f2 s, s.length ≤ f1 → s.length ≤ f2 →
    findallAux hdr f1 s = findallAux hdr f2 s := by
  intro f1
  induction f1 with
  | zero =>
    intro f2 s h1 h2
    have : s = [] := List.eq_nil_of_length_eq_zero (by omega)
    subst this
    simp [findallAux_nil]
  | succ f ih =>
    intro f2 s h1 h2
    cases s with
    | nil => simp [findallAux_nil]
    | cons c t =>
      cases f2 with
      | zero => simp at h2
      | succ f2' =>
        simp only [findallAux]
        have hlen : ((t.drop (hdr.length - 1)).drop
            (bodyLen (t.drop (hdr.length - 1)))).length ≤ t.length := by
          simp only [List.length_drop]
          omega
        simp only [List.length_cons] at h1 h2
        cases hm : hasPre hdr (c :: t) with
        | true =>
          simp only [hm, if_true]
          rw [ih f2' _ (by omega) (by omega)]
        | false =>
          simp only [Bool.false_eq_true, if_false]
          exact ih f2' t (by omega) (by omega)

/-- findall on the empty string. -/
theorem findall_nil (hdr : Str) : findall hdr [] = [] := rfl

/-- findall steps over a position where the header does not match. -/
theorem findall_cons_neg {hdr : Str} {c : Char} {t : Str} (h : hasPre hdr (c :: t) = false) :
    findall hdr (c :: t) = findall hdr t := by
  show findallAux hdr (t.length + 1) (c :: t) = findallAux hdr t.length t
  simp only [findallAux, h]
  rfl

/-- findall at a header occurrence: the lazy body is emitted and the scan
resumes at its end. -/
theorem findall_append_pos (p0 : Char) (ps X : Str) :
    findall (p0 :: ps) ((p0 :: ps) ++ X) =
      X.take (bodyLen X) :: findall (p0 :: ps) (X.drop (bodyLen X)) := by
  show findallAux _ ((ps ++ X).length + 1) (p0 :: (ps ++ X)) = _
  simp only [findallAux]
  rw [show hasPre (p0 :: ps) (p0 :: (ps ++ X)) = true from hasPre_self (p0 :: ps) X]
  simp only [if_true, List.length_cons]
  have hdrop : (ps ++ X).drop (ps.length + 1 - 1) = X := by
    simp only [Nat.add_sub_cancel]
    exact List.drop_left ps X
  rw [hdrop]
  have hirr := findallAux_irrel (p0 :: ps) (ps ++ X).length (X.drop (bodyLen X)).length
    (X.drop (bodyLen X)) (by simp [List.length_drop, List.length_append]; omega) le_rfl
  rw [hirr]
  rfl

/-- findall skips any stretch free of the header's first character. -/
theorem findall_headFree {h0 : Char} {hrest : Str} : ∀ (u v : Str), (∀ c ∈ u, c ≠ h0) →
    findall (h0 :: hrest) (u ++ v) = findall (h0 :: hrest) v := by
  intro u
  induction u with
  | nil => simp
  | cons c t ih =>
    intro v hu
    rw [List.cons_append, findall_cons_neg (hasPre_cons_ne _ (hu c (by simp)))]
    exact ih v (fun d hd => hu d (by simp [hd]))

/-- The stop pattern cannot begin at a character followed by a non-equals
character. -/
theorem hasPre_sep_false (c : Char) (w : Str) (h : w.head? ≠ some '=') :
    hasPre sepPat (c :: w) = false := by
  by_cases hc : c = '\n'
  · subst hc
    rw [sepPat_eq]
    have hw : hasPre afPat w = false := by
      cases w with
      | nil => rw [afPat_eq]; rfl
      | cons d w' =>
        rw [afPat_eq]
        exact hasPre_cons_ne _ (by simpa using h)
    simp [hasPre, hw]
  · rw [sepPat_eq]
    exact hasPre_cons_ne _ hc

/-- Body length when the stop pattern first occurs right after the equals-free
stretch. -/
theorem bodyLen_mid : ∀ (B rest : Str), (∀ c ∈ B, c ≠ '=') → hasPre afPat rest = true →
    bodyLen (B ++ '\n' :: rest) = B.length := by
  intro B
  induction B with
  | nil =>
    intro rest hB hr
    rw [List.nil_append, bodyLen]
    rw [if_pos (by rw [sepPat_eq]; simp [hasPre, hr])]
    rfl
  | cons c t ih =>
    intro rest hB hr
    rw [List.cons_append, bodyLen]
    have hfalse : hasPre sepPat (c :: (t ++ '\n' :: rest)) = false := by
      apply hasPre_sep_false
      cases t with
      | nil => simp
      | cons d t' => simpa using hB d (by simp)
    rw [if_neg (by simp [hfalse])]
    rw [ih rest (fun d hd => hB d (by simp [hd])) hr]
    simp
    omega

/-- Body length when the body runs to the end of the string. -/
theorem bodyLen_end : ∀ (B : Str), (∀ c ∈ B, c ≠ '=') →
    bodyLen (B ++ ['\n', '\n']) = B.length + 2 := by
  intro B
  induction B with
  | nil => decide
  | cons c t ih =>
    intro hB
    rw [List.cons_append, bodyLen]
    have hfalse : hasPre sepPat (c :: (t ++ ['\n', '\n'])) = false := by
      apply hasPre_sep_false
      cases t with
      | nil => simp
      | cons d t' => simpa using hB d (by simp)
    rw [if_neg (by simp [hfalse])]
    rw [ih (fun d hd => hB d (by simp [hd]))]
    simp
    omega

/-- dropWhile over a stretch of satisfying characters. -/
theorem dropWhile_append_all {p : Char → Bool} : ∀ (l1 l2 : Str), (∀ c ∈ l1, p c = true) →
    (l1 ++ l2).dropWhile p = l2.dropWhile p := by
  intro l1
  induction l1 with
  | nil => simp
  | cons c t ih =>
    intro l2 h
    rw [List.cons_append, List.dropWhile_cons, if_pos (by simp [h c (by simp)])]
    exact ih l2 (fun d hd => h d (by simp [hd]))

/-- dropWhile stops at a failing head. -/
theorem dropWhile_cons_neg {p : Char → Bool} {c : Char} (l : Str) (h : p c = false) :
    (c :: l).dropWhile p = c :: l := by
  rw [List.dropWhile_cons, if_neg (by simp [h])]

/-- rstrip ignores a whitespace suffix. -/
theorem rstrip_append_ws (x w : Str) (hw : ∀ c ∈ w, isWs c = true) :
    rstrip (x ++ w) = rstrip x := by
  unfold rstrip
  rw [List.reverse_append]
  rw [dropWhile_append_all _ _ (fun c hc => hw c (List.mem_reverse.mp hc))]

/-- rstrip is the identity when the string ends in a nonempty whitespace-free
segment. -/
theorem rstrip_append_nonws (x y : Str) (hy : y ≠ []) (h : ∀ c ∈ y, isWs c = false) :
    rstrip (x ++ y) = x ++ y := by
  unfold rstrip
  rw [List.reverse_append]
  have hdw : List.dropWhile isWs (y.reverse ++ x.reverse) = y.reverse ++ x.reverse := by
    cases hyrev : y.reverse with
    | nil => exact absurd (by simpa using hyrev) hy
    | cons d r =>
      have hd : isWs d = false := h d (by rw [← List.mem_reverse, hyrev]; simp)
      rw [List.cons_append]
      exact dropWhile_cons_neg _ hd
  rw [hdw, ← List.reverse_append, List.reverse_reverse]

/-- lstrip is the identity at a non-whitespace head. -/
theorem lstrip_cons_nonws {c : Char} (t : Str) (h : isWs c = false) :
    lstrip (c :: t) = c :: t := by
  unfold lstrip
  exact dropWhile_cons_neg _ h

/-- joinNL of a cons with a nonempty tail. -/
theorem joinNL_cons (l : Str) (ls : List Str) (h : ls ≠ []) :
    joinNL (l :: ls) = l ++ '\n' :: joinNL ls := by
  cases ls with
  | nil => exact absurd rfl h
  | cons a t => rfl

/-- joinNL of two explicit leading lines. -/
theorem joinNL_cons2 (l a : Str) (t : List Str) : joinNL (l :: a :: t) = l ++ '\n' :: joinNL (a :: t) := rfl

/-- joinNL of an appended final line. -/
theorem joinNL_append_last : ∀ (ls : List Str) (l : Str), ls ≠ [] →
    joinNL (ls ++ [l]) = joinNL ls ++ '\n' :: l := by
  intro ls
  induction ls with
  | nil => intro l h; exact absurd rfl h
  | cons a t ih =>
    intro l _
    cases t with
    | nil => rfl
    | cons b t2 =>
      rw [List.cons_append, joinNL_cons _ _ (by simp), joinNL_cons _ _ (by simp),
        ih l (by simp)]
      simp

/-- Characters of a joined line list are newlines or characters of some line. -/
theorem joinNL_mem : ∀ (ls : List Str) (c : Char), c ∈ joinNL ls → c = '\n' ∨ ∃ l ∈ ls, c ∈ l := by
  intro ls
  induction ls with
  | nil => simp [joinNL]
  | cons a t ih =>
    intro c hc
    cases t with
    | nil => exact Or.inr ⟨a, by simp, hc⟩
    | cons b t2 =>
      rw [joinNL_cons _ _ (by simp)] at hc
      rcases List.mem_append.mp hc with h | h
      · exact Or.inr ⟨a, by simp, h⟩
      · rcases List.mem_cons.mp h with h | h
        · exact Or.inl h
        · rcases ih c h with h | ⟨l, hl, hcl⟩
          · exact Or.inl h
          · exact Or.inr ⟨l, by simp [hl], hcl⟩

/-- The inner line list of a section is never empty. -/
theorem innerLines_ne_nil (stamp : Str) (att : Dict) (total absent : Int) :
    innerLines stamp att total absent ≠ [] := by
  simp [innerLines]

/-- Character form of the header tail. -/
theorem tail_chars_eq : chars " ===" = [' ', '=', '=', '='] := rfl

/-- hdrPat is the header line plus its newline. -/
theorem hdrPat_eq_headerLine (iso : Str) : hdrPat iso = headerLineOf iso ++ ['\n'] := by
  unfold hdrPat headerLineOf afPat
  rw [tail_chars_eq]
  simp

/-- Decomposition of a section text into header pattern, inner text, and the
two closing newlines. -/
theorem sectionText_decomp (iso stamp : Str) (att : Dict) (total absent : Int) :
    sectionText iso stamp att total absent =
      hdrPat iso ++ joinNL (innerLines stamp att total absent) ++ ['\n', '\n'] := by
  unfold sectionText sectionLines
  have hne1 : innerLines stamp att total absent ++ [[]] ≠ [] := by simp
  rw [List.cons_append, joinNL_cons _ _ hne1]
  have h2 := joinNL_append_last (innerLines stamp att total absent) [] (innerLines_ne_nil _ _ _ _)
  rw [h2, hdrPat_eq_headerLine]
  simp

/-- The section text is the returned block plus the blank separator line. -/
theorem secText_eq_blockOf (q : SectionData) : secText q = blockOf q ++ ['\n'] := by
  unfold secText blockOf
  rw [sectionText_decomp]
  simp

/-- Explicit cons form of the header pattern. -/
theorem hdrPat_cons (iso : Str) :
    hdrPat iso = '=' :: '=' :: '=' :: ' ' ::
      (chars "Attendance for: " ++ iso ++ [' ', '=', '=', '=', '\n']) := by
  unfold hdrPat
  rw [afPat_eq]
  simp

/-- The inner text of a section starts with the letter G of "Generated at". -/
theorem innerText_head (stamp : Str) (att : Dict) (total absent : Int) :
    ∃ t, joinNL (innerLines stamp att total absent) = 'G' :: t := by
  unfold innerLines
  simp only [List.cons_append, List.append_assoc]
  rw [joinNL_cons2]
  exact ⟨_, rfl⟩

/-- The inner text of a section ends with the rendering of the absent count. -/
theorem innerText_tail (stamp : Str) (att : Dict) (total absent : Int) :
    ∃ X, joinNL (innerLines stamp att total absent) = X ++ intStr absent := by
  have hsplit : innerLines stamp att total absent =
      ([chars "Generated at: " ++ stamp, [],
        ljust 28 (chars "Student Name") ++ chars "Check-in Time", dashLine] ++
       (sortedEntries att).map (fun e => ljust 28 e.1 ++ e.2) ++
       [dashLine, chars "Total Students Present: " ++ natStr att.length,
        chars "Total Students (Class Strength): " ++ intStr total]) ++
      [chars "Total Absent: " ++ intStr absent] := by
    simp [innerLines]
  have hne : ([chars "Generated at: " ++ stamp, [],
        ljust 28 (chars "Student Name") ++ chars "Check-in Time", dashLine] ++
       (sortedEntries att).map (fun e => ljust 28 e.1 ++ e.2) ++
       [dashLine, chars "Total Students Present: " ++ natStr att.length,
        chars "Total Students (Class Strength): " ++ intStr total]) ≠ [] := by simp
  rw [hsplit, joinNL_append_last _ _ hne]
  refine ⟨joinNL ([chars "Generated at: " ++ stamp, [],
        ljust 28 (chars "Student Name") ++ chars "Check-in Time", dashLine] ++
       (sortedEntries att).map (fun e => ljust 28 e.1 ++ e.2) ++
       [dashLine, chars "Total Students Present: " ++ natStr att.length,
        chars "Total Students (Class Strength): " ++ intStr total]) ++
      '\n' :: chars "Total Absent: ", ?_⟩
  simp

/-- strip of the inner text followed by trailing whitespace recovers exactly
the inner text. -/
theorem innerText_strip (stamp : Str) (att : Dict) (total absent : Int) (w : Str)
    (hw : ∀ c ∈ w, isWs c = true) :
    strip (joinNL (innerLines stamp att total absent) ++ w) =
      joinNL (innerLines stamp att total absent) := by
  obtain ⟨X, hX⟩ := innerText_tail stamp att total absent
  obtain ⟨t, ht⟩ := innerText_head stamp att total absent
  unfold strip
  rw [rstrip_append_ws _ _ hw]
  have h2 : rstrip (joinNL (innerLines stamp att total absent)) =
      joinNL (innerLines stamp att total absent) := by
    rw [hX]
    exact rstrip_append_nonws _ _ (intStr_ne_nil _)
      (fun c hc => (char_window (intStr_window _ c hc).1 (intStr_window _ c hc).2).1)
  rw [h2, ht]
  exact lstrip_cons_nonws _ (by decide)

/-- Characters of a left-justified string are its own characters or spaces. -/
theorem ljust_mem {c : Char} {w : Nat} {s : Str} (h : c ∈ ljust w s) : c ∈ s ∨ c = ' ' := by
  unfold ljust at h
  rcases List.mem_append.mp h with h | h
  · exact Or.inl h
  · exact Or.inr (List.eq_of_mem_replicate h)

/-- Membership through the stable insertion. -/
theorem mem_insEntry {x y : Str × Str} : ∀ (l : List (Str × Str)), y ∈ insEntry x l → y = x ∨ y ∈ l := by
  intro l
  induction l with
  | nil => simp [insEntry]
  | cons a t ih =>
    intro h
    rw [insEntry] at h
    by_cases hk : keyLt a x = true
    · rw [if_pos hk] at h
      rcases List.mem_cons.mp h with h | h
      · exact Or.inr (by simp [h])
      · rcases ih h with h | h
        · exact Or.inl h
        · exact Or.inr (by simp [h])
    · rw [if_neg hk] at h
      rcases List.mem_cons.mp h with h | h
      · exact Or.inl h
      · exact Or.inr h

/-- Entries of the sorted entry list come from the original dictionary. -/
theorem mem_sortedEntries {y : Str × Str} : ∀ l, y ∈ sortedEntries l → y ∈ l := by
  intro l
  induction l with
  | nil => simp [sortedEntries]
  | cons a t ih =>
    intro h
    rcases mem_insEntry _ h with h | h
    · simp [h]
    · simp [ih h]

/-- The inner text of a clean section contains no equals sign. -/
theorem innerText_eqFree (q : SectionData) (hq : secClean q) :
    ∀ c ∈ joinNL (innerLines q.sstamp q.satt q.stotal q.sabsent), c ≠ '=' := by
  obtain ⟨hv, hs, hlb, hatt⟩ := hq
  intro c hc
  rcases joinNL_mem _ c hc with h | ⟨l, hl, hcl⟩
  · subst h; decide
  · have hgen : ∀ x ∈ chars "Generated at: ", x ≠ '=' := by decide
    have hcol : ∀ x ∈ ljust 28 (chars "Student Name") ++ chars "Check-in Time", x ≠ '=' := by
      decide
    have hdash : ∀ x ∈ dashLine, x ≠ '=' := by decide
    have ht1 : ∀ x ∈ chars "Total Students Present: ", x ≠ '=' := by decide
    have ht2 : ∀ x ∈ chars "Total Students (Class Strength): ", x ≠ '=' := by decide
    have ht3 : ∀ x ∈ chars "Total Absent: ", x ≠ '=' := by decide
    unfold innerLines at hl
    rcases List.mem_append.mp hl with hl | hl
    · rcases List.mem_append.mp hl with hl | hl
      · rcases List.mem_cons.mp hl with rfl | hl
        · rcases List.mem_append.mp hcl with hcl | hcl
          · exact hgen c hcl
          · exact hs c hcl
        · rcases List.mem_cons.mp hl with rfl | hl
          · simp at hcl
          · rcases List.mem_cons.mp hl with rfl | hl
            · exact hcol c hcl
            · rcases List.mem_cons.mp hl with rfl | hl
              · exact hdash c hcl
              · simp at hl
      · obtain ⟨e, he, hle⟩ := List.mem_map.mp hl
        have hec := hatt e (mem_sortedEntries _ he)
        subst hle
        rcases List.mem_append.mp hcl with hcl | hcl
        · rcases ljust_mem hcl with hcl | rfl
          · exact hec.1 c hcl
          · decide
        · exact hec.2.1 c hcl
    · rcases List.mem_cons.mp hl with rfl | hl
      · exact hdash c hcl
      · rcases List.mem_cons.mp hl with rfl | hl
        · rcases List.mem_append.mp hcl with hcl | hcl
          · exact ht1 c hcl
          · have := isDigit_window (natStr_digits _ c hcl)
            exact (char_window (by omega) (by omega)).2.2
        · rcases List.mem_cons.mp hl with rfl | hl
          · rcases List.mem_append.mp hcl with hcl | hcl
            · exact ht2 c hcl
            · have := intStr_window _ c hcl
              exact (char_window this.1 this.2).2.2
          · rcases List.mem_cons.mp hl with rfl | hl
            · rcases List.mem_append.mp hcl with hcl | hcl
              · exact ht3 c hcl
              · have := intStr_window _ c hcl
                exact (char_window this.1 this.2).2.2
            · simp at hl

/-- Shape of a section text followed by more content, with the header exploded
into characters. -/
theorem secText_shape (q : SectionData) (v : Str) :
    secText q ++ v = '=' :: '=' :: '=' :: ' ' ::
      ((chars "Attendance for: " ++ isoformat q.sdate ++ [' ']) ++
       ('=' :: '=' :: '=' :: '\n' ::
        ((joinNL (innerLines q.sstamp q.satt q.stotal q.sabsent) ++ ['\n', '\n']) ++ v))) := by
  unfold secText
  rw [sectionText_decomp, hdrPat_cons]
  simp

/-- findall skips a whole clean section whose date does not match the target. -/
theorem findall_sec_skip (iso : Str) (hlen : iso.length = 10) (q : SectionData)
    (hq : secClean q) (hne : isoformat q.sdate ≠ iso) (v : Str) :
    findall (hdrPat iso) (secText q ++ v) = findall (hdrPat iso) v := by
  obtain ⟨hv, hs, hlb, hatt⟩ := hq
  have hlen1 : (isoformat q.sdate).length = 10 := isoformat_len hv
  have hfree := innerText_eqFree q ⟨hv, hs, hlb, hatt⟩
  have h0 : hasPre (hdrPat iso) (secText q ++ v) = false := by
    unfold secText
    rw [sectionText_decomp]
    have hsh : hdrPat (isoformat q.sdate) ++
        joinNL (innerLines q.sstamp q.satt q.stotal q.sabsent) ++ ['\n', '\n'] ++ v =
        afPat ++ (isoformat q.sdate ++ ([' ', '=', '=', '=', '\n'] ++
          (joinNL (innerLines q.sstamp q.satt q.stotal q.sabsent) ++ (['\n', '\n'] ++ v)))) := by
      unfold hdrPat
      simp
    have hpat : hdrPat iso = afPat ++ (iso ++ [' ', '=', '=', '=', '\n']) := by
      unfold hdrPat
      simp
    rw [hsh, hpat, hasPre_append_same]
    cases hb : hasPre (iso ++ [' ', '=', '=', '=', '\n'])
        (isoformat q.sdate ++ ([' ', '=', '=', '=', '\n'] ++
          (joinNL (innerLines q.sstamp q.satt q.stotal q.sabsent) ++ (['\n', '\n'] ++ v)))) with
    | false => rfl
    | true =>
      have h2 := (hasPre_eq_len iso (isoformat q.sdate) [' ', '=', '=', '=', '\n']
        ([' ', '=', '=', '=', '\n'] ++
          (joinNL (innerLines q.sstamp q.satt q.stotal q.sabsent) ++ (['\n', '\n'] ++ v)))
        (by omega)).mp hb
      exact (hne h2.1.symm).elim
  rw [secText_shape] at h0 ⊢
  rw [findall_cons_neg h0]
  rw [findall_cons_neg (by rw [hdrPat_cons]; simp [hasPre])]
  rw [findall_cons_neg (by rw [hdrPat_cons]; simp [hasPre])]
  rw [findall_cons_neg (by rw [hdrPat_cons]; exact hasPre_cons_ne _ (by decide))]
  rw [hdrPat_cons]
  rw [findall_headFree _ _ (by
    intro c hc
    rcases List.mem_append.mp hc with hc | hc
    · rcases List.mem_append.mp hc with hc | hc
      · exact (show ∀ x ∈ chars "Attendance for: ", x ≠ '=' by decide) c hc
      · have := isoformat_window q.sdate c hc
        exact (char_window this.1 this.2).2.2
    · simp at hc
      subst hc
      decide)]
  rw [findall_cons_neg (by simp [hasPre])]
  rw [findall_cons_neg (by simp [hasPre])]
  rw [findall_cons_neg (by simp [hasPre])]
  rw [findall_cons_neg (hasPre_cons_ne _ (by decide))]
  rw [findall_headFree _ _ (by
    intro c hc
    rcases List.mem_append.mp hc with hc | hc
    · exact hfree c hc
    · exact (show ∀ x ∈ (['\n', '\n'] : Str), x ≠ '=' by decide) c hc)]

/-- findall consumes a matching clean section followed by another section and
emits its inner text plus one newline. -/
theorem findall_sec_match_cons (q : SectionData) (hq : secClean q) (v : Str)
    (hv : hasPre afPat v = true) :
    findall (hdrPat (isoformat q.sdate)) (secText q ++ v) =
      (joinNL (innerLines q.sstamp q.satt q.stotal q.sabsent) ++ ['\n']) ::
        findall (hdrPat (isoformat q.sdate)) v := by
  have hfree := innerText_eqFree q hq
  have hshape : secText q ++ v = hdrPat (isoformat q.sdate) ++
      ((joinNL (innerLines q.sstamp q.satt q.stotal q.sabsent) ++ ['\n']) ++ '\n' :: v) := by
    unfold secText
    rw [sectionText_decomp]
    simp
  rw [hshape, hdrPat_cons, findall_append_pos]
  have hbl : bodyLen ((joinNL (innerLines q.sstamp q.satt q.stotal q.sabsent) ++ ['\n']) ++
      '\n' :: v) = (joinNL (innerLines q.sstamp q.satt q.stotal q.sabsent) ++ ['\n']).length := by
    apply bodyLen_mid _ v ?_ hv
    intro c hc
    rcases List.mem_append.mp hc with hc | hc
    · exact hfree c hc
    · simp at hc
      subst hc
      decide
  rw [hbl, List.take_left, List.drop_left]
  rw [← hdrPat_cons]
  congr 1

/-- findall consumes a final matching clean section and emits its inner text
plus the two closing newlines. -/
theorem findall_sec_match_nil (q : SectionData) (hq : secClean q) :
    findall (hdrPat (isoformat q.sdate)) (secText q) =
      [joinNL (innerLines q.sstamp q.satt q.stotal q.sabsent) ++ ['\n', '\n']] := by
  have hfree := innerText_eqFree q hq
  have hshape : secText q = hdrPat (isoformat q.sdate) ++
      (joinNL (innerLines q.sstamp q.satt q.stotal q.sabsent) ++ ['\n', '\n']) := by
    unfold secText
    rw [sectionText_decomp]
    simp
  rw [hshape, hdrPat_cons, findall_append_pos]
  have hbl : bodyLen (joinNL (innerLines q.sstamp q.satt q.stotal q.sabsent) ++ ['\n', '\n']) =
      (joinNL (innerLines q.sstamp q.satt q.stotal q.sabsent)).length + 2 :=
    bodyLen_end _ hfree
  rw [hbl]
  rw [show (joinNL (innerLines q.sstamp q.satt q.stotal q.sabsent)).length + 2 =
      (joinNL (innerLines q.sstamp q.satt q.stotal q.sabsent) ++ ['\n', '\n']).length by simp]
  rw [List.take_length, List.drop_length]
  rfl

/-- The archive of a nonempty run list starts with the header literal. -/
theorem archiveOf_head (q : SectionData) (l : List SectionData) :
    hasPre afPat (archiveOf (q :: l)) = true := by
  show hasPre afPat (secText q ++ archiveOf l) = true
  unfold secText
  rw [sectionText_decomp]
  unfold hdrPat
  simp only [List.append_assoc]
  exact hasPre_self _ _

/-- stripBlock recovers the block for a raw body consisting of the inner text
plus trailing newlines. -/
theorem stripBlock_body (iso stamp : Str) (att : Dict) (total absent : Int) (w : Str)
    (hw : ∀ c ∈ w, isWs c = true) :
    stripBlock iso (joinNL (innerLines stamp att total absent) ++ w) =
      hdrPat iso ++ joinNL (innerLines stamp att total absent) ++ ['\n'] := by
  unfold stripBlock
  rw [innerText_strip _ _ _ _ _ hw]

/-- Main archive-scan theorem: on an archive consisting of clean recorded
sections, find_sections_by_date returns exactly the blocks of the sections
whose date matches the target, in order, each being the section text without
its trailing blank line. -/
theorem findSections_archive (iso : Str) (hlen : iso.length = 10) :
    ∀ secs : List SectionData, (∀ q ∈ secs, secClean q) →
      findSections (archiveOf secs) iso =
        (secs.filter (fun q => decide (isoformat q.sdate = iso))).map blockOf := by
  intro secs
  induction secs with
  | nil => intro _; rfl
  | cons q rest ih =>
    intro h
    have hq := h q (by simp)
    have hrest : ∀ r ∈ rest, secClean r := fun r hr => h r (by simp [hr])
    by_cases hiso : isoformat q.sdate = iso
    · subst hiso
      cases rest with
      | nil =>
        unfold findSections
        rw [show archiveOf [q] = secText q by simp [archiveOf]]
        rw [findall_sec_match_nil q hq]
        simp only [List.map]
        rw [stripBlock_body _ _ _ _ _ _ (by decide)]
        simp [List.filter_cons, blockOf]
      | cons r rest2 =>
        have ih2 := ih hrest
        unfold findSections at ih2 ⊢
        rw [show archiveOf (q :: r :: rest2) = secText q ++ archiveOf (r :: rest2) from rfl]
        rw [findall_sec_match_cons q hq _ (archiveOf_head r rest2)]
        simp only [List.map_cons]
        rw [stripBlock_body _ _ _ _ _ _ (by decide)]
        rw [List.filter_cons, if_pos (by simp)]
        simp only [List.map_cons]
        rw [ih2]
        rfl
    · unfold findSections
      rw [show archiveOf (q :: rest) = secText q ++ archiveOf rest from rfl]
      rw [findall_sec_skip iso hlen q hq hiso]
      rw [List.filter_cons]
      rw [if_neg (by simp [hiso])]
      exact ih hrest

/-- splitLinesAux at a plain newline break. -/
theorem splitLinesAux_nl (cur r : Str) :
    splitLinesAux cur ('\n' :: r) = cur.reverse :: splitLinesAux [] r := by
  cases r <;> rfl

/-- splitLinesAux accumulates a non-break character. -/
theorem splitLinesAux_other {c : Char} (cur t : Str) (h1 : isLB c = false) :
    splitLinesAux cur (c :: t) = splitLinesAux (c :: cur) t := by
  cases t with
  | nil => simp [splitLinesAux, h1]
  | cons c2 t2 => simp [splitLinesAux, h1]

/-- splitLinesAux consumes one break-free line up to its newline. -/
theorem splitLinesAux_line : ∀ (l cur r : Str), (∀ c ∈ l, isLB c = false) →
    splitLinesAux cur (l ++ '\n' :: r) = (cur.reverse ++ l) :: splitLinesAux [] r := by
  intro l
  induction l with
  | nil =>
    intro cur r _
    rw [List.nil_append, splitLinesAux_nl]
    simp
  | cons c t ih =>
    intro cur r hl
    rw [List.cons_append, splitLinesAux_other _ _ (hl c (by simp))]
    rw [ih (c :: cur) r (fun d hd => hl d (by simp [hd]))]
    simp

/-- splitlines recovers the lines of a newline-terminated join of break-free
lines. -/
theorem splitLines_joinNL : ∀ (ls : List Str), ls ≠ [] →
    (∀ l ∈ ls, ∀ c ∈ l, isLB c = false) →
    splitLines (joinNL ls ++ ['\n']) = ls := by
  intro ls
  induction ls with
  | nil => intro h _; exact absurd rfl h
  | cons l t ih =>
    intro _ hl
    cases t with
    | nil =>
      show splitLinesAux [] (l ++ '\n' :: []) = [l]
      rw [splitLinesAux_line l [] [] (hl l (by simp))]
      rfl
    | cons a t2 =>
      rw [joinNL_cons2]
      show splitLinesAux [] ((l ++ '\n' :: joinNL (a :: t2)) ++ ['\n']) = _
      rw [show (l ++ '\n' :: joinNL (a :: t2)) ++ ['\n'] =
        l ++ '\n' :: (joinNL (a :: t2) ++ ['\n']) by simp]
      rw [splitLinesAux_line l [] _ (hl l (by simp))]
      rw [show splitLinesAux [] (joinNL (a :: t2) ++ ['\n']) =
        splitLines (joinNL (a :: t2) ++ ['\n']) from rfl]
      rw [ih (by simp) (fun l2 hl2 => hl l2 (by simp [hl2]))]
      simp

/-- No line of a clean section contains a line-break character. -/
theorem secClean_lbFree (q : SectionData) (hq : secClean q) :
    ∀ l ∈ headerLineOf (isoformat q.sdate) :: innerLines q.sstamp q.satt q.stotal q.sabsent,
      ∀ c ∈ l, isLB c = false := by
  obtain ⟨hv, hs, hlb, hatt⟩ := hq
  have hdr : ∀ x ∈ chars "=== Attendance for: ", isLB x = false := by decide
  have htl : ∀ x ∈ chars " ===", isLB x = false := by decide
  have hgen : ∀ x ∈ chars "Generated at: ", isLB x = false := by decide
  have hcol : ∀ x ∈ ljust 28 (chars "Student Name") ++ chars "Check-in Time", isLB x = false := by
    decide
  have hdash : ∀ x ∈ dashLine, isLB x = false := by decide
  have ht1 : ∀ x ∈ chars "Total Students Present: ", isLB x = false := by decide
  have ht2 : ∀ x ∈ chars "Total Students (Class Strength): ", isLB x = false := by decide
  have ht3 : ∀ x ∈ chars "Total Absent: ", isLB x = false := by decide
  intro l hml c hcl
  rcases List.mem_cons.mp hml with rfl | hml
  · unfold headerLineOf at hcl
    rcases List.mem_append.mp hcl with hc | hc
    · rcases List.mem_append.mp hc with hc | hc
      · exact hdr c hc
      · have := isoformat_window q.sdate c hc
        exact (char_window this.1 this.2).2.1
    · exact htl c hc
  · unfold innerLines at hml
    rcases List.mem_append.mp hml with hml | hml
    · rcases List.mem_append.mp hml with hml | hml
      · rcases List.mem_cons.mp hml with rfl | hml
        · rcases List.mem_append.mp hcl with hc | hc
          · exact hgen c hc
          · exact hlb c hc
        · rcases List.mem_cons.mp hml with rfl | hml
          · simp at hcl
          · rcases List.mem_cons.mp hml with rfl | hml
            · exact hcol c hcl
            · rcases List.mem_cons.mp hml with rfl | hml
              · exact hdash c hcl
              · simp at hml
      · obtain ⟨e, he, hle⟩ := List.mem_map.mp hml
        have hec := hatt e (mem_sortedEntries _ he)
        subst hle
        rcases List.mem_append.mp hcl with hc | hc
        · rcases ljust_mem hc with hc | rfl
          · exact hec.2.2.1 c hc
          · decide
        · exact hec.2.2.2 c hc
    · rcases List.mem_cons.mp hml with rfl | hml
      · exact hdash c hcl
      · rcases List.mem_cons.mp hml with rfl | hml
        · rcases List.mem_append.mp hcl with hc | hc
          · exact ht1 c hc
          · have := isDigit_window (natStr_digits _ c hc)
            exact (char_window (by omega) (by omega)).2.1
        · rcases List.mem_cons.mp hml with rfl | hml
          · rcases List.mem_append.mp hcl with hc | hc
            · exact ht2 c hc
            · have := intStr_window _ c hc
              exact (char_window this.1 this.2).2.1
          · rcases List.mem_cons.mp hml with rfl | hml
            · rcases List.mem_append.mp hcl with hc | hc
              · exact ht3 c hc
              · have := intStr_window _ c hc
                exact (char_window this.1 this.2).2.1
            · simp at hml

/-- The lines of the block returned for a clean section are exactly the header
line and the inner lines. -/
theorem splitLines_blockOf (q : SectionData) (hq : secClean q) :
    splitLines (blockOf q) =
      headerLineOf (isoformat q.sdate) :: innerLines q.sstamp q.satt q.stotal q.sabsent := by
  have h1 : blockOf q =
      joinNL (headerLineOf (isoformat q.sdate) ::
        innerLines q.sstamp q.satt q.stotal q.sabsent) ++ ['\n'] := by
    unfold blockOf
    rw [joinNL_cons _ _ (innerLines_ne_nil _ _ _ _), hdrPat_eq_headerLine]
    simp
  rw [h1, splitLines_joinNL _ (by simp) (secClean_lbFree q hq)]

/-- The archive of runs with one more run appended. -/
theorem archiveOf_append_single (q : SectionData) :
    ∀ l, archiveOf (l ++ [q]) = archiveOf l ++ secText q := by
  intro l
  induction l with
  | nil => simp [archiveOf]
  | cons a t ih =>
    show secText a ++ archiveOf (t ++ [q]) = (secText a ++ archiveOf t) ++ secText q
    rw [ih]
    simp

/-- C3 amended: on an archive consisting of clean recorded sections,
find_sections_by_date returns exactly the blocks of the sections whose header
date matches the target date, in order; each returned block is the section as
written minus its trailing blank separator line, with the body
whitespace-stripped rather than verbatim for arbitrary archive text. -/
theorem claim_C3_amended (d : PyDate) (hd : validDate d = true) (secs : List SectionData)
    (hsecs : ∀ q ∈ secs, secClean q) :
    find_sections_by_date (some (archiveOf secs)) d =
      (secs.filter (fun q => decide (isoformat q.sdate = isoformat d))).map blockOf ∧
    ∀ q ∈ secs, secText q = blockOf q ++ ['\n'] := by
  refine ⟨?_, fun q _ => secText_eq_blockOf q⟩
  show findSections (archiveOf secs) (isoformat d) = _
  exact findSections_archive (isoformat d) (isoformat_len hd) secs hsecs

/-- C3 counterexample: the claim promises blocks character-for-character
identical to the archive text, but on an archive whose section body has a
trailing space the returned block strips the body and appends a newline, so
the returned block is not even a contiguous substring of the archive. -/
theorem claim_C3_cex :
    find_sections_by_date (some (chars "=== Attendance for: 2025-01-01 ===\nX ")) ⟨2025, 1, 1⟩ =
      [chars "=== Attendance for: 2025-01-01 ===\nX\n"] ∧
    hasSub (chars "=== Attendance for: 2025-01-01 ===\nX\n")
      (chars "=== Attendance for: 2025-01-01 ===\nX ") = false := by
  constructor
  · decide
  · decide

/-- C3 amended witness: a two-run archive with distinct dates, queried for the
first date. -/
theorem claim_C3_amended_witness :
    find_sections_by_date (some (archiveOf
        [⟨⟨2025, 11, 20⟩, chars "2025-11-20 09:00:00",
          [(chars "Alice", chars "09:15 AM"), (chars "Bob", chars "09:20 AM")], 3, 1⟩,
         ⟨⟨2025, 11, 21⟩, chars "s", [(chars "Cara", chars "10:00 AM")], 2, 1⟩]))
      ⟨2025, 11, 20⟩ =
      (([⟨⟨2025, 11, 20⟩, chars "2025-11-20 09:00:00",
          [(chars "Alice", chars "09:15 AM"), (chars "Bob", chars "09:20 AM")], 3, 1⟩,
         ⟨⟨2025, 11, 21⟩, chars "s", [(chars "Cara", chars "10:00 AM")], 2, 1⟩] :
          List SectionData).filter
        (fun q => decide (isoformat q.sdate = isoformat ⟨2025, 11, 20⟩))).map blockOf :=
  (claim_C3_amended ⟨2025, 11, 20⟩ (by decide) _ (by decide)).1

/-- C1 amended: appending a clean nonempty section with strength at least the
entry count to a clean archive and querying its date returns the new block
among the results, whose lines carry the present count and the absent count
strength minus present; on a fresh archive the result is exactly that block.
For entries containing line breaks or equals signs the scan can split the
section into several blocks, so the cleanliness hypotheses are necessary. -/
theorem claim_C1_amended (prior : List SectionData) (hprior : ∀ r ∈ prior, secClean r)
    (q : SectionData) (hq : secClean q) (hne : q.satt ≠ [])
    (hstr : (List.length q.satt : Int) ≤ q.stotal)
    (habs : q.sabsent = q.stotal - (List.length q.satt : Int)) :
    blockOf q ∈ find_sections_by_date
      (some (write_archive_section (archiveOf prior) q.sdate q.sstamp q.satt q.stotal q.sabsent))
      q.sdate ∧
    chars "Total Students Present: " ++ natStr (List.length q.satt) ∈ splitLines (blockOf q) ∧
    chars "Total Absent: " ++ intStr (q.stotal - (List.length q.satt : Int)) ∈
      splitLines (blockOf q) ∧
    (prior = [] → find_sections_by_date
      (some (write_archive_section (archiveOf prior) q.sdate q.sstamp q.satt q.stotal q.sabsent))
      q.sdate = [blockOf q]) := by
  have hiso10 : (isoformat q.sdate).length = 10 := isoformat_len hq.1
  have hall : ∀ r ∈ prior ++ [q], secClean r := by
    intro r hr
    rcases List.mem_append.mp hr with hr | hr
    · exact hprior r hr
    · simp at hr
      subst hr
      exact hq
  have harch : write_archive_section (archiveOf prior) q.sdate q.sstamp q.satt q.stotal q.sabsent
      = archiveOf (prior ++ [q]) := by
    rw [archiveOf_append_single]
    rfl
  have hfind : find_sections_by_date (some (archiveOf (prior ++ [q]))) q.sdate =
      ((prior ++ [q]).filter (fun r => decide (isoformat r.sdate = isoformat q.sdate))).map
        blockOf := by
    show findSections _ _ = _
    exact findSections_archive _ hiso10 _ hall
  have hlines := splitLines_blockOf q hq
  refine ⟨?_, ?_, ?_, ?_⟩
  · rw [harch, hfind]
    exact List.mem_map_of_mem _ (List.mem_filter.mpr ⟨by simp, by simp⟩)
  · rw [hlines]
    simp [innerLines]
  · rw [hlines, ← habs]
    simp [innerLines]
  · intro hp
    subst hp
    rw [harch, hfind]
    simp [List.filter_cons]

/-- C1 counterexample: with an entry whose name and time contain line breaks
and an embedded header, a single append to a fresh archive yields three blocks
for the date, two of which carry the Present and Absent count lines, so
findSectionsByDate does not yield exactly one such block. -/
theorem claim_C1_cex :
    (find_sections_by_date (some (write_archive_section [] ⟨2025, 11, 20⟩ (chars "s")
        [(chars "A", chars "09:00 AM"),
         (chars "B", chars "\n=== Attendance for: 2025-11-20 ===\nTotal Students Present: 2\nTotal Absent: 1\n=== Attendance for: 2025-11-20 ===\nx")]
        3 1)) ⟨2025, 11, 20⟩).length = 3 ∧
    ((find_sections_by_date (some (write_archive_section [] ⟨2025, 11, 20⟩ (chars "s")
        [(chars "A", chars "09:00 AM"),
         (chars "B", chars "\n=== Attendance for: 2025-11-20 ===\nTotal Students Present: 2\nTotal Absent: 1\n=== Attendance for: 2025-11-20 ===\nx")]
        3 1)) ⟨2025, 11, 20⟩).filter
      (fun b => decide (chars "Total Students Present: 2" ∈ splitLines b) &&
        decide (chars "Total Absent: 1" ∈ splitLines b))).length = 2 := by
  constructor
  · decide
  · decide

/-- C1 amended witness: the example of the specification, Alice and Bob with
class strength 3 on a fresh archive. -/
theorem claim_C1_amended_witness :
    blockOf ⟨⟨2025, 11, 20⟩, chars "2025-11-20 09:00:00",
        [(chars "Alice", chars "09:15 AM"), (chars "Bob", chars "09:20 AM")], 3, 1⟩ ∈
      find_sections_by_date (some (write_archive_section (archiveOf []) ⟨2025, 11, 20⟩
        (chars "2025-11-20 09:00:00")
        [(chars "Alice", chars "09:15 AM"), (chars "Bob", chars "09:20 AM")] 3 1))
        ⟨2025, 11, 20⟩ ∧
    chars "Total Students Present: 2" ∈ splitLines (blockOf ⟨⟨2025, 11, 20⟩,
      chars "2025-11-20 09:00:00",
      [(chars "Alice", chars "09:15 AM"), (chars "Bob", chars "09:20 AM")], 3, 1⟩) ∧
    find_sections_by_date (some (write_archive_section (archiveOf []) ⟨2025, 11, 20⟩
        (chars "2025-11-20 09:00:00")
        [(chars "Alice", chars "09:15 AM"), (chars "Bob", chars "09:20 AM")] 3 1))
        ⟨2025, 11, 20⟩ =
      [blockOf ⟨⟨2025, 11, 20⟩, chars "2025-11-20 09:00:00",
        [(chars "Alice", chars "09:15 AM"), (chars "Bob", chars "09:20 AM")], 3, 1⟩] := by
  have h := claim_C1_amended [] (by simp) ⟨⟨2025, 11, 20⟩, chars "2025-11-20 09:00:00",
    [(chars "Alice", chars "09:15 AM"), (chars "Bob", chars "09:20 AM")], 3, 1⟩
    (by decide) (by decide) (by decide) (by decide)
  refine ⟨h.1, ?_, h.2.2.2 rfl⟩
  have h2 := h.2.1
  exact h2

/-- dropWhile never lengthens a list. -/
theorem length_dropWhile_le (p : Char → Bool) : ∀ l : Str, (l.dropWhile p).length ≤ l.length := by
  intro l
  induction l with
  | nil => simp
  | cons c t ih =>
    rw [List.dropWhile_cons]
    by_cases hp : p c = true
    · rw [if_pos hp]; simp; omega
    · rw [if_neg hp]

/-- dropWhile that preserves the length is the identity. -/
theorem dropWhile_eq_self_of_length (p : Char → Bool) : ∀ l : Str,
    (l.dropWhile p).length = l.length → l.dropWhile p = l := by
  intro l
  induction l with
  | nil => intro _; rfl
  | cons c t ih =>
    intro h
    rw [List.dropWhile_cons] at h ⊢
    by_cases hp : p c = true
    · rw [if_pos hp] at h
      have := length_dropWhile_le p t
      simp at h
      omega
    · rw [if_neg hp]

/-- rstrip never lengthens a string. -/
theorem rstrip_length_le (s : Str) : (rstrip s).length ≤ s.length := by
  unfold rstrip
  simpa using length_dropWhile_le isWs s.reverse

/-- A strip-invariant string is rstrip-invariant. -/
theorem rstrip_of_strip_eq {s : Str} (h : strip s = s) : rstrip s = s := by
  have h1 : (strip s).length = s.length := by rw [h]
  have h2 : (strip s).length ≤ (rstrip s).length := by
    unfold strip lstrip
    exact length_dropWhile_le isWs (rstrip s)
  have h3 : (rstrip s).length ≤ s.length := rstrip_length_le s
  have h4 : (s.reverse.dropWhile isWs).length = s.reverse.length := by
    unfold rstrip at h2 h3
    simp only [List.length_reverse]
    simp only [List.length_reverse] at h2 h3
    omega
  unfold rstrip
  rw [dropWhile_eq_self_of_length _ _ h4, List.reverse_reverse]

/-- A strip-invariant string is lstrip-invariant. -/
theorem lstrip_of_strip_eq {s : Str} (h : strip s = s) : lstrip s = s := by
  have hr := rstrip_of_strip_eq h
  unfold strip at h
  rw [hr] at h
  exact h

/-- headD looks only at a nonempty first part. -/
theorem headD_append_ne {l1 : Str} (l2 : Str) (d : Char) (h : l1 ≠ []) :
    (l1 ++ l2).headD d = l1.headD d := by
  cases l1 with
  | nil => exact absurd rfl h
  | cons c t => rfl

/-- The head of an lstrip-invariant nonempty string is not whitespace. -/
theorem head_nonws_of_lstrip {c : Char} {t : Str} (h : lstrip (c :: t) = c :: t) :
    isWs c = false := by
  by_cases hc : isWs c = true
  · exfalso
    unfold lstrip at h
    rw [List.dropWhile_cons, if_pos hc] at h
    have h1 := congrArg List.length h
    have h2 := length_dropWhile_le isWs t
    simp at h1
    omega
  · simpa using hc

/-- The last character of an rstrip-invariant nonempty string is not
whitespace, read as the head of the reversal. -/
theorem last_nonws_of_rstrip {s : Str} (h1 : rstrip s = s) (h2 : s ≠ []) :
    isWs (s.reverse.headD 'a') = false := by
  cases hrev : s.reverse with
  | nil =>
    exfalso
    have : s = [] := by simpa using congrArg List.reverse hrev
    exact h2 this
  | cons c r =>
    show isWs c = false
    by_cases hc : isWs c = true
    · exfalso
      unfold rstrip at h1
      rw [hrev, List.dropWhile_cons, if_pos hc] at h1
      have hlen := congrArg List.length h1
      have hle := length_dropWhile_le isWs r
      have hsr : s.length = r.length + 1 := by
        have := congrArg List.length hrev
        simpa using this
      simp at hlen
      omega
    · simpa using hc

/-- dropWhile distributes over an append whose first part does not vanish. -/
theorem dropWhile_append_ne {p : Char → Bool} : ∀ (l1 l2 : Str), l1.dropWhile p ≠ [] →
    (l1 ++ l2).dropWhile p = l1.dropWhile p ++ l2 := by
  intro l1
  induction l1 with
  | nil => intro l2 h; exact absurd rfl h
  | cons c t ih =>
    intro l2 h
    rw [List.dropWhile_cons] at h
    rw [List.cons_append]
    simp only [List.dropWhile_cons]
    by_cases hp : p c = true
    · rw [if_pos hp] at h
      rw [if_pos hp, if_pos hp]
      exact ih l2 h
    · rw [if_neg hp, if_neg hp]
      rfl

/-- rstrip acts only on the second part of an append when that part does not
strip to nothing. -/
theorem rstrip_append {x y : Str} (h : rstrip y ≠ []) : rstrip (x ++ y) = x ++ rstrip y := by
  have hne : y.reverse.dropWhile isWs ≠ [] := by
    intro hc
    unfold rstrip at h
    rw [hc] at h
    exact h rfl
  unfold rstrip
  rw [List.reverse_append, dropWhile_append_ne _ _ hne, List.reverse_append,
    List.reverse_reverse]

/-- strip is the identity on whitespace-free strings. -/
theorem strip_all_nonws {s : Str} (h : ∀ c ∈ s, isWs c = false) : strip s = s := by
  cases s with
  | nil => rfl
  | cons c t =>
    unfold strip
    have h1 : rstrip (c :: t) = c :: t := by
      have := rstrip_append_nonws [] (c :: t) (by simp) h
      simpa using this
    rw [h1]
    exact lstrip_cons_nonws t (h c (by simp))

/-- Title-casing never empties a nonempty string. -/
theorem pyTitle_ne_nil {s : Str} (h : s ≠ []) : pyTitle s ≠ [] := by
  cases s with
  | nil => exact absurd rfl h
  | cons c t =>
    unfold pyTitle pyTitleAux
    by_cases hc : c.isAlpha = true
    · rw [if_pos hc]; simp
    · rw [if_neg hc]; simp

/-- A two-character string in explicit form. -/
theorem list_len2 : ∀ (s : Str), s.length = 2 → ∃ a b, s = [a, b] := by
  intro s h
  rcases s with _ | ⟨a, s⟩
  · simp at h
  rcases s with _ | ⟨b, s⟩
  · simp at h
  rcases s with _ | ⟨c, s⟩
  · exact ⟨a, b, rfl⟩
  · simp at h

/-- A four-character string in explicit form. -/
theorem list_len4 : ∀ (s : Str), s.length = 4 → ∃ a b c d, s = [a, b, c, d] := by
  intro s h
  rcases s with _ | ⟨a, s⟩
  · simp at h
  rcases s with _ | ⟨b, s⟩
  · simp at h
  rcases s with _ | ⟨c, s⟩
  · simp at h
  rcases s with _ | ⟨d, s⟩
  · simp at h
  rcases s with _ | ⟨e, s⟩
  · exact ⟨a, b, c, d, rfl⟩
  · simp at h

/-- The month length table never exceeds 31. -/
theorem daysInMonth_le (y m : Nat) : daysInMonth y m ≤ 31 := by
  unfold daysInMonth
  split_ifs <;> omega

/-- The isoformat of a valid date passes the capture-group shape test of the
read_from_archive split pattern. -/
theorem isoShape_isoformat {d : PyDate} (hd : validDate d = true) :
    isoShape (isoformat d) = true := by
  unfold validDate at hd
  simp only [Bool.and_eq_true, decide_eq_true_eq] at hd
  obtain ⟨⟨⟨⟨⟨hy1, hy2⟩, hm1⟩, hm2⟩, hd1⟩, hd2⟩ := hd
  have hdm := daysInMonth_le d.year d.month
  have hylen : (padZ 4 (natStr d.year)).length = 4 :=
    padZ_len (natStr_len_le (show d.year < 10 ^ 4 by norm_num; omega) (by norm_num))
  have hmlen : (padZ 2 (natStr d.month)).length = 2 :=
    padZ_len (natStr_len_le (show d.month < 10 ^ 2 by norm_num; omega) (by norm_num))
  have hdlen : (padZ 2 (natStr d.day)).length = 2 :=
    padZ_len (natStr_len_le (show d.day < 10 ^ 2 by norm_num; omega) (by norm_num))
  have hydig := padZ_digits 4 (natStr d.year) (natStr_digits d.year)
  have hmdig := padZ_digits 2 (natStr d.month) (natStr_digits d.month)
  have hddig := padZ_digits 2 (natStr d.day) (natStr_digits d.day)
  obtain ⟨a, b, c, d4, hy⟩ := list_len4 _ hylen
  obtain ⟨e, f, hm⟩ := list_len2 _ hmlen
  obtain ⟨g, h8, hdd⟩ := list_len2 _ hdlen
  have ha : a.isDigit = true := hydig a (by rw [hy]; simp)
  have hb : b.isDigit = true := hydig b (by rw [hy]; simp)
  have hc : c.isDigit = true := hydig c (by rw [hy]; simp)
  have hd4 : d4.isDigit = true := hydig d4 (by rw [hy]; simp)
  have he : e.isDigit = true := hmdig e (by rw [hm]; simp)
  have hf : f.isDigit = true := hmdig f (by rw [hm]; simp)
  have hg : g.isDigit = true := hddig g (by rw [hdd]; simp)
  have hh : h8.isDigit = true := hddig h8 (by rw [hdd]; simp)
  unfold isoformat
  rw [hy, hm, hdd]
  show isoShape ([a, b, c, d4] ++ '-' :: ([e, f] ++ '-' :: [g, h8])) = true
  have hlist : [a, b, c, d4] ++ '-' :: ([e, f] ++ '-' :: [g, h8]) =
      [a, b, c, d4, '-', e, f, '-', g, h8] := rfl
  rw [hlist]
  unfold isoShape
  simp [ha, hb, hc, hd4, he, hf, hg, hh]

/-- reSplit of the empty string at any fuel. -/
theorem reSplitAux_nil (f : Nat) : reSplitAux f [] = ([], []) := by
  cases f <;> rfl

/-- Fuel irrelevance of the re.split loop at adequate fuel. -/
theorem reSplitAux_irrel : ∀ f1 f2 s, s.length ≤ f1 → s.length ≤ f2 →
    reSplitAux f1 s = reSplitAux f2 s := by
  intro f1
  induction f1 with
  | zero =>
    intro f2 s h1 h2
    have : s = [] := List.eq_nil_of_length_eq_zero (by omega)
    subst this
    simp [reSplitAux_nil]
  | succ f ih =>
    intro f2 s h1 h2
    cases s with
    | nil => simp [reSplitAux_nil]
    | cons c t =>
      cases f2 with
      | zero => simp at h2
      | succ f2' =>
        simp only [reSplitAux]
        simp only [List.length_cons] at h1 h2
        cases hm : splitMatch (c :: t) with
        | true =>
          simp only [hm, if_true]
          rw [ih f2' (t.drop 33) (by simp only [List.length_drop]; omega)
            (by simp only [List.length_drop]; omega)]
        | false =>
          simp only [Bool.false_eq_true, if_false]
          rw [ih f2' t (by omega) (by omega)]

/-- The re.split scan steps over a position where the pattern does not match. -/
theorem reSplit_cons_neg {c : Char} {t : Str} (h : splitMatch (c :: t) = false) :
    reSplit (c :: t) = (c :: (reSplit t).1, (reSplit t).2) := by
  show reSplitAux (t.length + 1) (c :: t) = _
  simp only [reSplitAux, h]
  rfl

/-- The split pattern cannot match at a character other than an equals sign. -/
theorem splitMatch_cons_ne {c : Char} (t : Str) (h : c ≠ '=') :
    splitMatch (c :: t) = false := by
  unfold splitMatch
  have h1 : hasPre afPat (c :: t) = false := by
    rw [afPat_eq]
    exact hasPre_cons_ne t h
  rw [h1]
  rfl

/-- The re.split scan passes an equals-free stretch into the current segment. -/
theorem reSplit_headFree : ∀ (u v : Str), (∀ c ∈ u, c ≠ '=') →
    reSplit (u ++ v) = (u ++ (reSplit v).1, (reSplit v).2) := by
  intro u
  induction u with
  | nil => intro v _; simp
  | cons c t ih =>
    intro v hu
    rw [List.cons_append, reSplit_cons_neg (splitMatch_cons_ne _ (hu c (by simp)))]
    rw [ih v (fun d hd => hu d (by simp [hd]))]
    rfl

/-- Explicit head decomposition of the literal header text. -/
theorem afPat_cons : afPat = '=' :: chars "== Attendance for: " := rfl

/-- The re.split scan at a matching position: the capture is the ten characters
after the literal header text, and the scan resumes after the full match. -/
theorem reSplit_cons_pos {c : Char} {t : Str} (h : splitMatch (c :: t) = true) :
    reSplit (c :: t) =
      ([], ((t.drop 19).take 10, (reSplit (t.drop 33)).1) :: (reSplit (t.drop 33)).2) := by
  show reSplitAux (t.length + 1) (c :: t) = _
  simp only [reSplitAux, h, if_true]
  rw [reSplitAux_irrel t.length (t.drop 33).length (t.drop 33)
    (by simp only [List.length_drop]; omega) le_rfl]
  rfl

/-- The split pattern matches at a full section header, captures the date, and
consumes exactly the thirty-four header characters. -/
theorem reSplit_hdr (iso : Str) (hlen : iso.length = 10) (hshape : isoShape iso = true)
    (X : Str) :
    reSplit ('=' :: (chars "== Attendance for: " ++ (iso ++ ([' ', '=', '=', '='] ++ X)))) =
      ([], (iso, (reSplit X).1) :: (reSplit X).2) := by
  have h19 : (chars "== Attendance for: ").length = 19 := rfl
  have hT19 : (chars "== Attendance for: " ++ (iso ++ ([' ', '=', '=', '='] ++ X))).drop 19 =
      iso ++ ([' ', '=', '=', '='] ++ X) := by
    rw [show (19 : Nat) = (chars "== Attendance for: ").length from rfl, List.drop_left]
  have ht10 : (iso ++ ([' ', '=', '=', '='] ++ X)).take 10 = iso := by
    rw [← hlen, List.take_left]
  have hT29 : (chars "== Attendance for: " ++ (iso ++ ([' ', '=', '=', '='] ++ X))).drop 29 =
      [' ', '=', '=', '='] ++ X := by
    rw [← List.append_assoc]
    rw [show (29 : Nat) = (chars "== Attendance for: " ++ iso).length by
      simp [h19, hlen], List.drop_left]
  have hT33 : (chars "== Attendance for: " ++ (iso ++ ([' ', '=', '=', '='] ++ X))).drop 33 =
      X := by
    rw [← List.append_assoc, ← List.append_assoc]
    rw [show (33 : Nat) =
      ((chars "== Attendance for: " ++ iso) ++ [' ', '=', '=', '=']).length by
        simp [h19, hlen], List.drop_left]
  have hmatch : splitMatch
      ('=' :: (chars "== Attendance for: " ++ (iso ++ ([' ', '=', '=', '='] ++ X)))) = true := by
    unfold splitMatch
    have hp1 : hasPre afPat
        ('=' :: (chars "== Attendance for: " ++ (iso ++ ([' ', '=', '=', '='] ++ X)))) = true := by
      rw [afPat_cons]
      have h := hasPre_append_same ('=' :: chars "== Attendance for: ") []
        (iso ++ ([' ', '=', '=', '='] ++ X))
      simpa using h
    have hd20 : ('=' :: (chars "== Attendance for: " ++
        (iso ++ ([' ', '=', '=', '='] ++ X)))).drop 20 =
        iso ++ ([' ', '=', '=', '='] ++ X) := by
      rw [show (20 : Nat) = 19 + 1 from rfl, List.drop_succ_cons, hT19]
    have hd30 : ('=' :: (chars "== Attendance for: " ++
        (iso ++ ([' ', '=', '=', '='] ++ X)))).drop 30 =
        [' ', '=', '=', '='] ++ X := by
      rw [show (30 : Nat) = 29 + 1 from rfl, List.drop_succ_cons, hT29]
    rw [hp1, hd20, ht10, hshape, hd30]
    rw [show hasPre (' ' :: '=' :: '=' :: ['=']) ([' ', '=', '=', '='] ++ X) = true from
      hasPre_self [' ', '=', '=', '='] X]
    rfl
  rw [reSplit_cons_pos hmatch]
  rw [hT19, ht10, hT33]

/-- Parser-equivalence cleanliness implies scanner cleanliness. -/
theorem runClean_secClean (q : SectionData) (hq : runClean q) : secClean q := by
  obtain ⟨hv, hst, he, hlb, hatt⟩ := hq
  refine ⟨hv, he, hlb, fun e hme => ?_⟩
  obtain ⟨_, _, _, _, h5, h6, _, _, _, _, _, _, h13, h14, _⟩ := hatt e hme
  exact ⟨h5, h13, h6, h14⟩

/-- The chunk following a clean section's header match contains no equals sign. -/
theorem chunk_eqFree (q : SectionData) (hq : secClean q) : ∀ c ∈ chunkOf q, c ≠ '=' := by
  intro c hc
  unfold chunkOf at hc
  rcases List.mem_cons.mp hc with rfl | hc
  · decide
  · rcases List.mem_append.mp hc with hc | hc
    · exact innerText_eqFree q hq c hc
    · rcases List.mem_cons.mp hc with rfl | hc
      · decide
      · rcases List.mem_cons.mp hc with rfl | hc
        · decide
        · simp at hc

/-- Header decomposition exposing the head equals sign of a section. -/
theorem hdrPat_cons19 (iso : Str) :
    hdrPat iso = '=' :: (chars "== Attendance for: " ++ (iso ++ [' ', '=', '=', '=', '\n'])) := by
  unfold hdrPat
  rw [afPat_cons]
  simp

/-- The re.split scan of an archive of clean sections: no text before the first
match, and one (captured date, chunk) pair per section, in order. -/
theorem reSplit_archive : ∀ (runs : List SectionData), (∀ q ∈ runs, runClean q) →
    reSplit (archiveOf runs) = ([], runs.map (fun q => (isoformat q.sdate, chunkOf q))) := by
  intro runs
  induction runs with
  | nil => intro _; rfl
  | cons q rest ih =>
    intro h
    have hq := h q (by simp)
    have hsec := runClean_secClean q hq
    have hv : validDate q.sdate = true := hq.1
    have hre : archiveOf (q :: rest) =
        '=' :: (chars "== Attendance for: " ++ (isoformat q.sdate ++
          ([' ', '=', '=', '='] ++ (chunkOf q ++ archiveOf rest)))) := by
      show secText q ++ archiveOf rest = _
      unfold secText
      rw [sectionText_decomp, hdrPat_cons19]
      simp [chunkOf]
    rw [hre, reSplit_hdr _ (isoformat_len hv) (isoShape_isoformat hv) _]
    rw [reSplit_headFree (chunkOf q) (archiveOf rest) (chunk_eqFree q hsec)]
    rw [ih (fun r hr => h r (by simp [hr]))]
    simp

/-- splitlines consumes a newline-terminated join of break-free lines and
continues on the remainder. -/
theorem splitLines_joinNL_gen : ∀ (ls : List Str) (r : Str), ls ≠ [] →
    (∀ l ∈ ls, ∀ c ∈ l, isLB c = false) →
    splitLinesAux [] (joinNL ls ++ '\n' :: r) = ls ++ splitLinesAux [] r := by
  intro ls
  induction ls with
  | nil => intro r h _; exact absurd rfl h
  | cons l t ih =>
    intro r _ hl
    cases t with
    | nil =>
      show splitLinesAux [] (l ++ '\n' :: r) = _
      rw [splitLinesAux_line l [] r (hl l (by simp))]
      simp
    | cons a t2 =>
      rw [joinNL_cons2]
      rw [show (l ++ '\n' :: joinNL (a :: t2)) ++ '\n' :: r =
        l ++ '\n' :: (joinNL (a :: t2) ++ '\n' :: r) by simp]
      rw [splitLinesAux_line l [] _ (hl l (by simp))]
      rw [ih r (by simp) (fun l2 hl2 => hl l2 (by simp [hl2]))]
      simp

/-- The lines of the chunk following a clean section's header match: one empty
line from the header's own newline, the inner lines, and one empty line from
the blank separator. -/
theorem splitLines_chunkOf (q : SectionData) (hq : secClean q) :
    splitLines (chunkOf q) =
      [] :: (innerLines q.sstamp q.satt q.stotal q.sabsent ++ [[]]) := by
  unfold chunkOf splitLines
  rw [splitLinesAux_nl]
  rw [splitLines_joinNL_gen (innerLines q.sstamp q.satt q.stotal q.sabsent) ['\n']
    (innerLines_ne_nil _ _ _ _)
    (fun l hl => secClean_lbFree q hq l (by simp [hl]))]
  rfl

/-- splitWs2Aux on an exhausted string at any fuel. -/
theorem splitWs2Aux_nil (f : Nat) (cur : Str) : splitWs2Aux f cur [] = [cur.reverse] := by
  cases f <;> rfl

/-- Fuel irrelevance of the whitespace-run split loop at adequate fuel. -/
theorem splitWs2Aux_irrel : ∀ f1 f2 (cur s : Str), s.length ≤ f1 → s.length ≤ f2 →
    splitWs2Aux f1 cur s = splitWs2Aux f2 cur s := by
  intro f1
  induction f1 with
  | zero =>
    intro f2 cur s h1 h2
    have : s = [] := List.eq_nil_of_length_eq_zero (by omega)
    subst this
    simp [splitWs2Aux_nil]
  | succ f ih =>
    intro f2 cur s h1 h2
    cases s with
    | nil => simp [splitWs2Aux_nil]
    | cons c t =>
      cases f2 with
      | zero => simp at h2
      | succ f2' =>
        simp only [splitWs2Aux]
        simp only [List.length_cons] at h1 h2
        cases hm : (isWs c && headWs t) with
        | true =>
          simp only [hm, if_true]
          rw [ih f2' [] (t.drop (wsRun t)) (by simp only [List.length_drop]; omega)
            (by simp only [List.length_drop]; omega)]
        | false =>
          simp only [Bool.false_eq_true, if_false]
          rw [ih f2' (c :: cur) t (by omega) (by omega)]

/-- A whitespace-pair-free string keeps its tail whitespace-pair-free. -/
theorem noWsPair_tail {c : Char} {u : Str} (h : noWsPair (c :: u) = true) :
    noWsPair u = true := by
  cases u with
  | nil => rfl
  | cons d u' =>
    unfold noWsPair at h
    simp only [Bool.and_eq_true] at h
    exact h.2

/-- The split loop passes a whitespace-pair-free stretch whose last character
is not whitespace into the current part unchanged. -/
theorem sw2Aux_pass : ∀ (u : Str) (fuel : Nat) (cur v : Str), (u ++ v).length ≤ fuel →
    noWsPair u = true → isWs (u.reverse.headD 'a') = false →
    splitWs2Aux fuel cur (u ++ v) = splitWs2Aux (fuel - u.length) (u.reverse ++ cur) v := by
  intro u
  induction u with
  | nil =>
    intro fuel cur v h1 h2 h3
    simp
  | cons c u' ih =>
    intro fuel cur v h1 h2 h3
    cases fuel with
    | zero => simp at h1
    | succ f =>
      cases u' with
      | nil =>
        have hc : isWs c = false := by simpa using h3
        simp only [List.cons_append, List.nil_append]
        simp only [splitWs2Aux]
        rw [show (isWs c && headWs v) = false by simp [hc]]
        simp only [Bool.false_eq_true, if_false]
        rw [show (f + 1) - (c :: ([] : Str)).length = f by simp]
        rw [show (c :: ([] : Str)).reverse ++ cur = c :: cur by simp]
      | cons d u'' =>
        have hlast : isWs ((d :: u'').reverse.headD 'a') = false := by
          rw [List.reverse_cons] at h3
          rw [headD_append_ne [c] 'a' (by simp)] at h3
          exact h3
        have h2' : (isWs c && isWs d) = false ∧ noWsPair (d :: u'') = true := by
          unfold noWsPair at h2
          simp only [Bool.and_eq_true, Bool.not_eq_true'] at h2
          exact h2
        have hcond : (isWs c && headWs ((d :: u'') ++ v)) = false := by
          show (isWs c && isWs d) = false
          exact h2'.1
        rw [List.cons_append]
        simp only [splitWs2Aux]
        rw [hcond]
        simp only [Bool.false_eq_true, if_false]
        rw [show (f + 1) - (c :: d :: u'').length = f - (d :: u'').length by simp]
        rw [show (c :: d :: u'').reverse ++ cur = (d :: u'').reverse ++ (c :: cur) by simp]
        simp only [List.length_cons, List.length_append] at h1
        exact ih f (c :: cur) v (by simp [List.length_append]; omega) h2'.2 hlast

/-- The leading whitespace run of a space block followed by more text. -/
theorem wsRun_replicate_sp : ∀ (k : Nat) (t : Str),
    wsRun (List.replicate k ' ' ++ t) = k + wsRun t := by
  intro k
  induction k with
  | zero => intro t; simp
  | succ k ih =>
    intro t
    rw [List.replicate_succ, List.cons_append]
    rw [show wsRun (' ' :: (List.replicate k ' ' ++ t)) =
      1 + wsRun (List.replicate k ' ' ++ t) from rfl]
    rw [ih t]
    omega

/-- A string with a non-whitespace head has no leading whitespace run. -/
theorem wsRun_zero_of_headWs {t : Str} (h : headWs t = false) : wsRun t = 0 := by
  cases t with
  | nil => rfl
  | cons c r =>
    unfold wsRun
    rw [if_neg]
    simp only [headWs] at h
    simp [h]

/-- The split loop closes the current part at a run of two or more spaces and
resumes after the run. -/
theorem sw2Aux_run : ∀ (m : Nat) (t : Str) (fuel : Nat) (cur : Str), 2 ≤ m →
    (List.replicate m ' ' ++ t).length ≤ fuel → headWs t = false →
    splitWs2Aux fuel cur (List.replicate m ' ' ++ t) =
      cur.reverse :: splitWs2Aux t.length [] t := by
  intro m t fuel cur hm hf ht
  obtain ⟨k, rfl⟩ : ∃ k, m = k + 1 := ⟨m - 1, by omega⟩
  cases fuel with
  | zero =>
    exfalso
    simp [List.length_append] at hf
  | succ f =>
    rw [List.replicate_succ, List.cons_append]
    simp only [splitWs2Aux]
    have hcond : (isWs ' ' && headWs (List.replicate k ' ' ++ t)) = true := by
      obtain ⟨k', rfl⟩ : ∃ k', k = k' + 1 := ⟨k - 1, by omega⟩
      rw [List.replicate_succ, List.cons_append]
      rw [show headWs (' ' :: (List.replicate k' ' ' ++ t)) = isWs ' ' from rfl]
      decide
    rw [hcond]
    simp only [if_true]
    congr 1
    have hrun : wsRun (List.replicate k ' ' ++ t) = k := by
      rw [wsRun_replicate_sp, wsRun_zero_of_headWs ht]
      omega
    rw [hrun]
    have hdrop : (List.replicate k ' ' ++ t).drop k = t := by
      have h := List.drop_left (List.replicate k ' ') t
      rw [List.length_replicate] at h
      exact h
    rw [hdrop]
    refine splitWs2Aux_irrel f t.length [] t ?_ le_rfl
    simp [List.length_append] at hf
    omega

/-- The whitespace-run split of a fixed-width data row recovers the name and
the time. -/
theorem splitWs2_row (n t : Str) (m : Nat) (hm : 2 ≤ m)
    (hn1 : noWsPair n = true) (hnr : rstrip n = n) (hnn : n ≠ [])
    (ht1 : noWsPair t = true) (htr : rstrip t = t) (htl : lstrip t = t) (htn : t ≠ []) :
    splitWs2 (n ++ (List.replicate m ' ' ++ t)) = [n, t] := by
  unfold splitWs2
  rw [sw2Aux_pass n _ [] _ le_rfl hn1 (last_nonws_of_rstrip hnr hnn)]
  have hws : headWs t = false := by
    cases t with
    | nil => rfl
    | cons c r => exact head_nonws_of_lstrip htl
  rw [sw2Aux_run m t _ _ hm (by simp [List.length_append]) hws]
  have h2 : splitWs2Aux t.length [] t = [t] := by
    have h := sw2Aux_pass t t.length [] [] (by simp) ht1 (last_nonws_of_rstrip htr htn)
    simp only [List.append_nil] at h
    rw [h, splitWs2Aux_nil, List.reverse_reverse]
  rw [h2]
  simp

/-- The archive line reader skips a line whose stripped form starts with one of
the three metadata prefixes. -/
theorem lineStep_meta (dt : Str) (acc : PerDate) (line : Str)
    (h : (hasPre (chars "Generated at") (strip line) ||
          hasPre (chars "Student Name") (strip line) ||
          hasPre (chars "Total") (strip line)) = true) :
    lineStep dt acc line = acc := by
  unfold lineStep
  dsimp only
  by_cases h1 : strip line = []
  · rw [if_pos h1]
  · rw [if_neg h1]
    by_cases h2 : (strip line).all (fun c => c = '-') = true
    · rw [if_pos h2]
    · rw [if_neg h2]
      rw [if_pos h]

/-- The archive line reader skips an empty line. -/
theorem lineStep_blank (dt : Str) (acc : PerDate) : lineStep dt acc [] = acc := rfl

/-- The archive line reader skips a dash separator line. -/
theorem lineStep_dash (dt : Str) (acc : PerDate) : lineStep dt acc dashLine = acc := by
  unfold lineStep
  rw [show strip dashLine = dashLine from by decide]
  dsimp only
  rw [if_neg (by decide : ¬(dashLine = [])), if_pos (by decide : dashLine.all
    (fun c => c = '-') = true)]

/-- The archive line reader skips the column header line. -/
theorem lineStep_colhdr (dt : Str) (acc : PerDate) :
    lineStep dt acc (ljust 28 (chars "Student Name") ++ chars "Check-in Time") = acc :=
  lineStep_meta dt acc _ (by decide)

/-- The archive line reader skips the generated-at line for any strip-invariant
stamp. -/
theorem lineStep_gen (dt : Str) (acc : PerDate) (stamp : Str) (hst : strip stamp = stamp) :
    lineStep dt acc (chars "Generated at: " ++ stamp) = acc := by
  cases stamp with
  | nil => exact lineStep_meta dt acc _ (by decide)
  | cons c r =>
    have hr : rstrip (c :: r) = c :: r := rstrip_of_strip_eq hst
    have hstr : strip (chars "Generated at: " ++ (c :: r)) =
        chars "Generated at: " ++ (c :: r) := by
      unfold strip
      rw [rstrip_append (show rstrip (c :: r) ≠ [] by rw [hr]; simp)]
      rw [hr]
      rw [show chars "Generated at: " ++ (c :: r) =
        'G' :: (chars "enerated at: " ++ (c :: r)) from rfl]
      rw [lstrip_cons_nonws _ (by decide)]
    apply lineStep_meta
    rw [hstr]
    rw [show chars "Generated at: " = chars "Generated at" ++ chars ": " from rfl]
    rw [List.append_assoc, hasPre_self]
    simp

/-- The archive line reader skips any line made of the literal "Total" prefix,
further text, and a nonempty whitespace-free tail. -/
theorem lineStep_total (dt : Str) (acc : PerDate) (r2 y : Str)
    (hy1 : y ≠ []) (hy2 : ∀ c ∈ y, isWs c = false) :
    lineStep dt acc ((chars "Total" ++ r2) ++ y) = acc := by
  have hstr : strip ((chars "Total" ++ r2) ++ y) = (chars "Total" ++ r2) ++ y := by
    unfold strip
    rw [rstrip_append_nonws _ y hy1 hy2]
    rw [show (chars "Total" ++ r2) ++ y = 'T' :: ((chars "otal" ++ r2) ++ y) by
      simp [show chars "Total" = 'T' :: chars "otal" from rfl]]
    rw [lstrip_cons_nonws _ (by decide)]
  apply lineStep_meta
  rw [hstr, List.append_assoc, hasPre_self]
  simp

/-- A string with a digit pair, colon, digit pair contains a non-dash
character. -/
theorem hasDDcDD_nondash : ∀ t : Str, hasDDcDD t = true → ∃ c ∈ t, c ≠ '-' := by
  intro t
  induction t with
  | nil => intro h; simp [hasDDcDD] at h
  | cons a t ih =>
    intro h
    rcases t with _ | ⟨b, t⟩
    · simp [hasDDcDD] at h
    rcases t with _ | ⟨c0, t⟩
    · simp [hasDDcDD] at h
    rcases t with _ | ⟨d0, t⟩
    · simp [hasDDcDD] at h
    rcases t with _ | ⟨e0, t⟩
    · simp [hasDDcDD] at h
    rw [hasDDcDD] at h
    simp only [Bool.or_eq_true] at h
    rcases h with h | h
    · simp only [Bool.and_eq_true, decide_eq_true_eq] at h
      refine ⟨a, by simp, fun heq => ?_⟩
      have hdig := h.1.1.1.1
      rw [heq] at hdig
      exact absurd hdig (by decide)
    · obtain ⟨c, hc, hcd⟩ := ih h
      exact ⟨c, by simp [hc], hcd⟩

/-- A string with an AM or PM marker contains a non-dash character. -/
theorem hasAmPm_nondash : ∀ t : Str, hasAmPm t = true → ∃ c ∈ t, c ≠ '-' := by
  intro t
  induction t with
  | nil => intro h; simp [hasAmPm] at h
  | cons a t ih =>
    intro h
    rcases t with _ | ⟨b, t⟩
    · simp [hasAmPm] at h
    rw [hasAmPm] at h
    simp only [Bool.or_eq_true] at h
    rcases h with h | h
    · simp only [Bool.and_eq_true, Bool.or_eq_true, decide_eq_true_eq] at h
      rcases h.1 with ((rfl | rfl) | rfl) | rfl <;>
        exact ⟨_, List.mem_cons_self _ _, by decide⟩
    · obtain ⟨c, hc, hcd⟩ := ih h
      exact ⟨c, by simp [hc], hcd⟩

/-- A nonempty string passing the time heuristic contains a non-dash
character. -/
theorem timeOk_nondash {t : Str} (h : timeOk t = true) (hne : t ≠ []) :
    ∃ c ∈ t, c ≠ '-' := by
  unfold timeOk at h
  simp only [Bool.or_eq_true] at h
  rcases h with (h | h) | h
  · exact hasDDcDD_nondash t h
  · exact hasAmPm_nondash t h
  · exact absurd (by simpa using h) hne

/-- A prefix test that fails on a bare name keeps failing after the name is
padded with two or more spaces and followed by more text, provided the pattern
has no whitespace pair and does not end in whitespace. -/
theorem hasPre_pad_false : ∀ (p n : Str) (m : Nat) (t : Str), noWsPair p = true →
    isWs (p.reverse.headD 'a') = false → 2 ≤ m → hasPre p n = false →
    hasPre p (n ++ (List.replicate m ' ' ++ t)) = false := by
  intro p
  induction p with
  | nil => intro n m t _ _ _ h; simp [hasPre] at h
  | cons c ps ih =>
    intro n m t hp hlast hm h
    cases n with
    | nil =>
      obtain ⟨k, rfl⟩ : ∃ k, m = k + 1 := ⟨m - 1, by omega⟩
      rw [List.nil_append, List.replicate_succ, List.cons_append]
      by_cases hc : c = ' '
      · subst hc
        cases ps with
        | nil =>
          exfalso
          revert hlast
          decide
        | cons d ps' =>
          unfold noWsPair at hp
          simp only [Bool.and_eq_true, Bool.not_eq_true'] at hp
          have hd : isWs d = false := by
            have h0 := hp.1
            rw [show isWs ' ' = true from by decide] at h0
            simpa using h0
          obtain ⟨k', rfl⟩ : ∃ k', k = k' + 1 := ⟨k - 1, by omega⟩
          rw [List.replicate_succ, List.cons_append]
          simp only [hasPre]
          simp [show d ≠ ' ' from fun hde => by
            rw [hde] at hd; exact absurd hd (by decide)]
      · exact hasPre_cons_ne _ (fun he => hc he.symm)
    | cons a n' =>
      rw [List.cons_append]
      simp only [hasPre] at h ⊢
      by_cases hca : c = a
      · cases ps with
        | nil => exact absurd h (by simp [hca, hasPre])
        | cons c2 ps2 =>
          have hlast' : isWs ((c2 :: ps2).reverse.headD 'a') = false := by
            rw [List.reverse_cons] at hlast
            rw [headD_append_ne [c] 'a' (by simp)] at hlast
            exact hlast
          have hps : hasPre (c2 :: ps2) n' = false := by
            simpa [hca] using h
          have hres := ih n' m t (noWsPair_tail hp) hlast' hm hps
          simp [hca, hres]
      · simp [hca]

/-- lstrip leaves a line that begins with an lstrip-invariant nonempty
string. -/
theorem lstrip_append_of_inv {n : Str} (hnl : lstrip n = n) (hne : n ≠ []) (v : Str) :
    lstrip (n ++ v) = n ++ v := by
  cases n with
  | nil => exact absurd rfl hne
  | cons c r =>
    rw [List.cons_append]
    exact lstrip_cons_nonws _ (head_nonws_of_lstrip hnl)

/-- The archive line reader turns a clean fixed-width data row into exactly the
dictionary insertion of the title-cased name and the time. -/
theorem lineStep_row (dt : Str) (acc : PerDate) (n t : Str) (h : rowClean (n, t)) :
    lineStep dt acc (ljust 28 n ++ t) = pdInsert acc dt (pyTitle n) t := by
  obtain ⟨h1, h2, h3, h4, h5, h6, h7, h8, h9, h10, h11, h12, h13, h14, h15⟩ := h
  replace h1 : strip n = n := h1
  replace h2 : n ≠ [] := h2
  replace h3 : n.length ≤ 26 := h3
  replace h4 : noWsPair n = true := h4
  replace h7 : hasPre (chars "Generated at") n = false := h7
  replace h8 : hasPre (chars "Student Name") n = false := h8
  replace h9 : hasPre (chars "Total") n = false := h9
  replace h10 : strip t = t := h10
  replace h11 : t ≠ [] := h11
  replace h12 : noWsPair t = true := h12
  replace h15 : timeOk t = true := h15
  have hnr : rstrip n = n := rstrip_of_strip_eq h1
  have hnl : lstrip n = n := lstrip_of_strip_eq h1
  have htr : rstrip t = t := rstrip_of_strip_eq h10
  have htl : lstrip t = t := lstrip_of_strip_eq h10
  have hshape : ljust 28 n ++ t = n ++ (List.replicate (28 - n.length) ' ' ++ t) := by
    unfold ljust
    simp [List.append_assoc]
  have hm : 2 ≤ 28 - n.length := by omega
  have hrt : rstrip (List.replicate (28 - n.length) ' ' ++ t) =
      List.replicate (28 - n.length) ' ' ++ t := by
    rw [rstrip_append (show rstrip t ≠ [] by rw [htr]; exact h11), htr]
  have hstrip : strip (n ++ (List.replicate (28 - n.length) ' ' ++ t)) =
      n ++ (List.replicate (28 - n.length) ' ' ++ t) := by
    unfold strip
    rw [rstrip_append (show rstrip (List.replicate (28 - n.length) ' ' ++ t) ≠ [] by
      rw [hrt]; intro hc; exact h11 (List.append_eq_nil.mp hc).2)]
    rw [hrt]
    exact lstrip_append_of_inv hnl h2 _
  have hsw : splitWs2 (n ++ (List.replicate (28 - n.length) ' ' ++ t)) = [n, t] :=
    splitWs2_row n t _ hm h4 hnr h2 h12 htr htl h11
  have hdash : (n ++ (List.replicate (28 - n.length) ' ' ++ t)).all
      (fun c => c = '-') = false := by
    obtain ⟨c, hc, hcd⟩ := timeOk_nondash h15 h11
    have hcm : c ∈ n ++ (List.replicate (28 - n.length) ' ' ++ t) := by simp [hc]
    have hno : ¬ ((n ++ (List.replicate (28 - n.length) ' ' ++ t)).all
        (fun c => c = '-') = true) := by
      rw [List.all_eq_true]
      intro hall
      exact hcd (by simpa using hall c hcm)
    simpa using hno
  have hpG : hasPre (chars "Generated at")
      (n ++ (List.replicate (28 - n.length) ' ' ++ t)) = false :=
    hasPre_pad_false _ _ _ _ (by decide) (by decide) hm h7
  have hpS : hasPre (chars "Student Name")
      (n ++ (List.replicate (28 - n.length) ' ' ++ t)) = false :=
    hasPre_pad_false _ _ _ _ (by decide) (by decide) hm h8
  have hpT : hasPre (chars "Total")
      (n ++ (List.replicate (28 - n.length) ' ' ++ t)) = false :=
    hasPre_pad_false _ _ _ _ (by decide) (by decide) hm h9
  rw [hshape]
  simp only [lineStep]
  rw [hstrip, hsw, hdash, hpG, hpS, hpT]
  rw [if_neg (show ¬(n ++ (List.replicate (28 - n.length) ' ' ++ t) = []) by simp [h2])]
  simp only [Bool.false_eq_true, if_false, Bool.or_self]
  simp only [List.getLast_singleton, h1, h10, h15, if_true]
  rw [if_neg (pyTitle_ne_nil h2)]

/-- Digits of the present-count rendering are not whitespace. -/
theorem natStr_nonws (n : Nat) : ∀ c ∈ natStr n, isWs c = false := by
  intro c hc
  have hd := isDigit_window (natStr_digits n c hc)
  exact (char_window (by omega) (by omega)).1

/-- Characters of a signed decimal rendering are not whitespace. -/
theorem intStr_nonws (i : Int) : ∀ c ∈ intStr i, isWs c = false := by
  intro c hc
  exact (char_window (intStr_window i c hc).1 (intStr_window i c hc).2).1

/-- Characters of an isoformat date are not whitespace. -/
theorem isoformat_nonws (d : PyDate) : ∀ c ∈ isoformat d, isWs c = false := by
  intro c hc
  exact (char_window (isoformat_window d c hc).1 (isoformat_window d c hc).2).1

/-- Processing the lines of one clean section's chunk folds exactly the
dictionary insertions of its sorted entries into the accumulator. -/
theorem chunkFold (q : SectionData) (hq : runClean q) (acc : PerDate) :
    List.foldl (lineStep (isoformat q.sdate)) acc (splitLines (chunkOf q)) =
      List.foldl (fun a e => pdInsert a (isoformat q.sdate) (pyTitle e.1) e.2) acc
        (sortedEntries q.satt) := by
  obtain ⟨hv, hst, hse, hslb, hatt⟩ := hq
  rw [splitLines_chunkOf q (runClean_secClean q ⟨hv, hst, hse, hslb, hatt⟩)]
  unfold innerLines
  simp only [List.foldl_cons, List.foldl_append, List.foldl_nil]
  rw [lineStep_blank]
  rw [lineStep_gen _ _ _ hst]
  rw [lineStep_blank]
  rw [lineStep_colhdr]
  rw [lineStep_dash]
  have hrows : ∀ (X : PerDate),
      List.foldl (fun a e => lineStep (isoformat q.sdate) a (ljust 28 e.1 ++ e.2)) X
        (sortedEntries q.satt) =
      List.foldl (fun a e => pdInsert a (isoformat q.sdate) (pyTitle e.1) e.2) X
        (sortedEntries q.satt) := by
    intro X
    apply List.foldl_ext
    intro a e he
    exact lineStep_row _ a e.1 e.2 (hatt e (mem_sortedEntries _ he))
  rw [List.foldl_map, hrows]
  rw [lineStep_dash]
  rw [show chars "Total Students Present: " =
    chars "Total" ++ chars " Students Present: " from rfl]
  rw [lineStep_total _ _ _ _ (natStr_ne_nil _) (natStr_nonws _)]
  rw [show chars "Total Students (Class Strength): " =
    chars "Total" ++ chars " Students (Class Strength): " from rfl]
  rw [lineStep_total _ _ _ _ (intStr_ne_nil _) (intStr_nonws _)]
  rw [show chars "Total Absent: " = chars "Total" ++ chars " Absent: " from rfl]
  rw [lineStep_total _ _ _ _ (intStr_ne_nil _) (intStr_nonws _)]
  rw [lineStep_blank]

/-- The csv-row producer with a general accumulator. -/
theorem foldl_rows_acc : ∀ (runs : List SectionData) (acc : List CsvRow),
    runs.foldl (fun a q => append_csv_rows a q.sdate q.sstamp q.satt) acc =
      acc ++ runs.foldl (fun a q => append_csv_rows a q.sdate q.sstamp q.satt) [] := by
  intro runs
  induction runs with
  | nil => intro acc; simp
  | cons q rest ih =>
    intro acc
    rw [List.foldl_cons, List.foldl_cons]
    rw [ih (append_csv_rows acc q.sdate q.sstamp q.satt)]
    rw [ih (append_csv_rows [] q.sdate q.sstamp q.satt)]
    unfold append_csv_rows
    simp [List.append_assoc]

/-- Reading the structured rows of clean runs folds, run by run, the dictionary
insertions of each run's sorted entries. -/
theorem csv_side : ∀ (runs : List SectionData), (∀ q ∈ runs, runClean q) →
    ∀ (acc : PerDate),
    List.foldl (fun acc r =>
      let dt := strip r.rdate
      let nm := pyTitle (strip r.sname)
      let tm := strip r.ctime
      if dt = [] ∨ nm = [] then acc else pdInsert acc dt nm tm) acc (csvRowsOf runs) =
    List.foldl (fun a q =>
      List.foldl (fun b e => pdInsert b (isoformat q.sdate) (pyTitle e.1) e.2) a
        (sortedEntries q.satt)) acc runs := by
  intro runs
  induction runs with
  | nil => intro _ acc; rfl
  | cons q rest ih =>
    intro h acc
    have hq := h q (by simp)
    have hv : validDate q.sdate = true := hq.1
    have hrowsQ : csvRowsOf (q :: rest) =
        (sortedEntries q.satt).map (fun e => ⟨q.sstamp, isoformat q.sdate, e.1, e.2⟩) ++
          csvRowsOf rest := by
      unfold csvRowsOf
      rw [List.foldl_cons, foldl_rows_acc]
      unfold append_csv_rows
      simp
    rw [List.foldl_cons]
    rw [hrowsQ, List.foldl_append, List.foldl_map]
    rw [ih (fun r hr => h r (by simp [hr]))]
    congr 1
    apply List.foldl_ext
    intro a e he
    have hrow := hq.2.2.2.2 e (mem_sortedEntries _ he)
    have hn1 : strip e.1 = e.1 := hrow.1
    have hn2 : e.1 ≠ [] := hrow.2.1
    have hn3 : strip e.2 = e.2 := hrow.2.2.2.2.2.2.2.2.2.1
    have hiso : strip (isoformat q.sdate) = isoformat q.sdate :=
      strip_all_nonws (isoformat_nonws q.sdate)
    have hisone : isoformat q.sdate ≠ [] := by
      have hl := isoformat_len hv
      intro hc
      rw [hc] at hl
      simp at hl
    dsimp only
    rw [hiso, hn1, hn3]
    rw [if_neg (show ¬(isoformat q.sdate = [] ∨ pyTitle e.1 = []) from
      fun hor => hor.elim (fun x => hisone x) (fun x => pyTitle_ne_nil hn2 x))]

/-- C2 counterexample data: one run whose student name contains a double
space. -/
theorem claim_C2_cex :
    read_from_csv (csvRowsOf [⟨⟨2025, 11, 20⟩, chars "s",
        [(chars "A  B", chars "09:15 AM")], 1, 0⟩]) ≠
      read_from_archive (some (archiveOf [⟨⟨2025, 11, 20⟩, chars "s",
        [(chars "A  B", chars "09:15 AM")], 1, 0⟩])) := by
  decide

/-- C2 amended: for runs whose stamps are strip-invariant and free of equals
signs and line breaks, and whose entries are clean fixed-width rows (names
strip-invariant, nonempty, at most twenty-six characters, free of whitespace
pairs, equals signs, line breaks and the metadata prefixes; times
strip-invariant, nonempty, free of whitespace pairs, equals signs and line
breaks, and passing the time heuristic), reading the structured CSV rows and
reading the archive text produced for the same runs yield identical
date-to-student-to-time mappings. -/
theorem claim_C2_amended (runs : List SectionData) (h : ∀ q ∈ runs, runClean q) :
    read_from_csv (csvRowsOf runs) = read_from_archive (some (archiveOf runs)) := by
  simp only [read_from_csv, read_from_archive]
  rw [reSplit_archive runs h]
  dsimp only
  rw [List.foldl_map]
  rw [csv_side runs h []]
  symm
  apply List.foldl_ext
  intro a q hqm
  have hiso : strip (isoformat q.sdate) = isoformat q.sdate :=
    strip_all_nonws (isoformat_nonws q.sdate)
  rw [hiso]
  exact chunkFold q (h q hqm) a

/-- C2 witness: a clean two-student run on which both readers agree. -/
theorem claim_C2_amended_witness :
    (∀ q ∈ ([⟨⟨2025, 11, 20⟩, chars "2025-11-20 09:00",
        [(chars "alice", chars "09:15 AM"), (chars "Bob", chars "09:20 AM")], 3, 1⟩] :
        List SectionData), runClean q) ∧
    read_from_csv (csvRowsOf [⟨⟨2025, 11, 20⟩, chars "2025-11-20 09:00",
        [(chars "alice", chars "09:15 AM"), (chars "Bob", chars "09:20 AM")], 3, 1⟩]) =
      read_from_archive (some (archiveOf [⟨⟨2025, 11, 20⟩, chars "2025-11-20 09:00",
        [(chars "alice", chars "09:15 AM"), (chars "Bob", chars "09:20 AM")], 3, 1⟩])) :=
  ⟨by decide, claim_C2_amended _ (by decide)⟩

end Tracker
